import Mathlib

/-!
Verification of the shared crawl/dedup core of the open-library repository.

This file shallowly embeds, in Lean 4, the parts of the Python source that
the specification's claims are about:

* the URL canonicalizers (src/crawlers/base.py canonicalize_url and the
  per-crawler variants in devb_publications.py and the telephone-directory
  crawlers), together with a model of the parts of Python's urllib.parse
  (urlsplit / urlparse / urlunparse) that they call;
* the retrying HTTP fetcher get_with_retries (src/crawlers/base.py);
* the frontier crawl loop of src/crawlers/devb_publications.py;
* the dedup crawl loop of src/crawlers/directory/tel_directory.py and the
  helper _merge_department_path of src/crawlers/tel_directory.py.

Python strings are modelled as List Char.  Python str.lower is modelled for
ASCII (pyToLower); str.strip strips the ASCII whitespace characters that
Lean's Char.isWhitespace recognises (Python additionally strips other
Unicode whitespace; no claim depends on those characters).  Pure functions
become Lean functions; the crawl loops become fuel-indexed recursions over
explicit state; code that raises becomes Option-valued (none = exception).
-/

namespace OpenLib

/-- Model of a Python str: a list of characters. -/
abbrev Str := List Char

/-- Characters removed from a URL by urlsplit before parsing
(urllib.parse._UNSAFE_URL_BYTES_TO_REMOVE = tab, CR, LF). -/
def unsafeUrlChar (c : Char) : Bool :=
  c = '\t' ∨ c = '\r' ∨ c = '\n'

/-- Model of urllib removing tab/CR/LF from the URL before splitting. -/
def removeUnsafe (s : Str) : Str :=
  s.filter (fun c => !unsafeUrlChar c)

/-- Model of Python str.lower for one character, ASCII range only, written
as an explicit table (it agrees with chr(ord(c) + 32) on A-Z).  Python
also lowercases non-ASCII letters; no claim depends on those. -/
def pyToLower (c : Char) : Char :=
  match c with
  | 'A' => 'a' | 'B' => 'b' | 'C' => 'c' | 'D' => 'd' | 'E' => 'e' | 'F' => 'f'
  | 'G' => 'g' | 'H' => 'h' | 'I' => 'i' | 'J' => 'j' | 'K' => 'k' | 'L' => 'l'
  | 'M' => 'm' | 'N' => 'n' | 'O' => 'o' | 'P' => 'p' | 'Q' => 'q' | 'R' => 'r'
  | 'S' => 's' | 'T' => 't' | 'U' => 'u' | 'V' => 'v' | 'W' => 'w' | 'X' => 'x'
  | 'Y' => 'y' | 'Z' => 'z'
  | _ => c

/-- Model of Python str.lower. -/
def lowerStr (s : Str) : Str := s.map pyToLower

/-- Model of Python str.strip() with no argument: remove leading and
trailing whitespace.  (Lean's Char.isWhitespace covers space, tab, CR, LF;
Python also strips other Unicode whitespace.) -/
def pyStrip (s : Str) : Str :=
  (s.dropWhile Char.isWhitespace).reverse.dropWhile Char.isWhitespace |>.reverse

/-- Split a list at the first occurrence of character c: returns the part
before c, and (some rest) when c occurs (c itself removed), none otherwise.
Models str.split(c, 1) / str.find(c). -/
def breakAtChar (c : Char) : Str → Str × Option Str
  | [] => ([], none)
  | x :: xs =>
    if x = c then ([], some xs)
    else
      let r := breakAtChar c xs
      (x :: r.1, r.2)

/-- Part of a string strictly after its last occurrence of c, together with
the part before that occurrence; junk value ([], s) when c does not occur.
Models str.rfind(c). -/
def splitAtLastChar (c : Char) (s : Str) : Str × Str :=
  match breakAtChar c s.reverse with
  | (rb, some ra) => (ra.reverse, rb.reverse)
  | (_, none) => ([], s)

/-- Drop all trailing occurrences of '/' — Python path.rstrip("/"). -/
def rstripSlash (s : Str) : Str :=
  (s.reverse.dropWhile (· = '/')).reverse

/-- Model of str.endswith for a single character. -/
def endsWithChar (c : Char) (s : Str) : Bool :=
  s.getLast? = some c

/-- Scheme characters accepted by urllib.parse (ASCII letters, digits,
'+', '-', '.'). -/
def isSchemeChar (c : Char) : Bool :=
  c.isAlpha ∨ c.isDigit ∨ c = '+' ∨ c = '-' ∨ c = '.'

/-- Characters that end the netloc component in urlsplit. -/
def isNetlocDelim (c : Char) : Bool :=
  c = '/' ∨ c = '?' ∨ c = '#'

/-- Scheme extraction of urlsplit: if the text before the first ':' is a
nonempty valid scheme starting with an ASCII letter, return it lowercased
together with the rest; otherwise no scheme. -/
def splitScheme (s : Str) : Str × Str :=
  match breakAtChar ':' s with
  | (pre, some rest) =>
    if pre ≠ [] ∧ (pre.headD ' ').isAlpha ∧ pre.all isSchemeChar then
      (lowerStr pre, rest)
    else ([], s)
  | (_, none) => ([], s)

/-- Mismatched square brackets in a netloc make urlsplit raise ValueError. -/
def bracketBad (n : Str) : Bool :=
  ('[' ∈ n ∧ ']' ∉ n) ∨ (']' ∈ n ∧ '[' ∉ n)

/-- Netloc extraction of urlsplit: if the remainder starts with "//", the
netloc runs up to the next '/', '?' or '#'; a netloc with mismatched
brackets raises (modelled as none). -/
def splitNetloc (s : Str) : Option (Str × Str) :=
  if s.take 2 = ['/', '/'] then
    let rest := s.drop 2
    let netloc := rest.takeWhile (fun c => !isNetlocDelim c)
    if bracketBad netloc then none
    else some (netloc, rest.dropWhile (fun c => !isNetlocDelim c))
  else some ([], s)

/-- Split off the fragment at the first '#', if any. -/
def splitFrag (s : Str) : Str × Str :=
  match breakAtChar '#' s with
  | (a, some b) => (a, b)
  | (a, none) => (a, [])

/-- Split off the query at the first '?', if any. -/
def splitQuery (s : Str) : Str × Str :=
  match breakAtChar '?' s with
  | (a, some b) => (a, b)
  | (a, none) => (a, [])

/-- Result of urlsplit: (scheme, netloc, path, query, fragment). -/
structure UrlSplit where
  scheme : Str
  netloc : Str
  path : Str
  query : Str
  fragment : Str
  deriving Repr, DecidableEq

/-- Model of urllib.parse.urlsplit (allow_fragments=True): remove unsafe
characters, take the scheme, the netloc after "//", then the fragment at
the first '#', then the query at the first '?'; the remainder is the path.
none models the ValueError raised on a netloc with mismatched brackets. -/
def urlsplitM (s : Str) : Option UrlSplit :=
  match splitNetloc (splitScheme (removeUnsafe s)).2 with
  | none => none
  | some nr =>
    some ⟨(splitScheme (removeUnsafe s)).1, nr.1,
          (splitQuery (splitFrag nr.2).1).1, (splitQuery (splitFrag nr.2).1).2,
          (splitFrag nr.2).2⟩

/-- Model of urllib.parse._splitparams: split the params off the path at
the first ';' after the last '/' (anywhere, when the path has no '/'). -/
def splitParamsF (u : Str) : Str × Str :=
  if '/' ∈ u then
    let ab := splitAtLastChar '/' u
    match breakAtChar ';' ab.2 with
    | (b₁, some b₂) => (ab.1 ++ '/' :: b₁, b₂)
    | (_, none) => (u, [])
  else
    match breakAtChar ';' u with
    | (u₁, some u₂) => (u₁, u₂)
    | (_, none) => (u, [])

/-- Result of urlparse: urlsplit plus the params component. -/
structure UrlParts where
  scheme : Str
  netloc : Str
  path : Str
  params : Str
  query : Str
  fragment : Str
  deriving Repr, DecidableEq

/-- Model of urllib.parse.urlparse: urlsplit, then split params from the
path when the path contains ';'. -/
def urlparseM (s : Str) : Option UrlParts :=
  match urlsplitM s with
  | none => none
  | some u =>
    some ⟨u.scheme, u.netloc,
          (if ';' ∈ u.path then splitParamsF u.path else (u.path, [])).1,
          (if ';' ∈ u.path then splitParamsF u.path else (u.path, [])).2,
          u.query, u.fragment⟩

/-- Model of urllib.parse.urlunsplit. -/
def urlunsplitF (scheme netloc url query frag : Str) : Str :=
  let url :=
    if netloc ≠ [] ∨ url.take 2 = ['/', '/'] then
      let url := if url ≠ [] ∧ url.head? ≠ some '/' then '/' :: url else url
      '/' :: '/' :: netloc ++ url
    else url
  let url := if scheme ≠ [] then scheme ++ ':' :: url else url
  let url := if query ≠ [] then url ++ '?' :: query else url
  if frag ≠ [] then url ++ '#' :: frag else url

/-- Model of urllib.parse.urlunparse. -/
def urlunparseF (p : UrlParts) : Str :=
  urlunsplitF p.scheme p.netloc
    (if p.params ≠ [] then p.path ++ ';' :: p.params else p.path)
    p.query p.fragment

/-! ## URL canonicalizers -/

/-- Options of base.canonicalize_url, with the source's defaults. -/
structure CanonOpts where
  rejectSchemes : List Str := ["javascript".data, "mailto".data, "tel".data]
  encodeSpaces : Bool := false
  lowercaseSchemeHost : Bool := true
  stripFragment : Bool := true
  trimTrailingSlash : Bool := true
  allowedHost : Option Str := none

/-- Model of s.replace(" ", "%20"). -/
def encodeSpacesF (s : Str) : Str :=
  s.flatMap fun c => if c = ' ' then ['%', '2', '0'] else [c]

/-- Rejected-scheme test of canonicalize_url: some rejected scheme,
lowercased and followed by ':', prefixes the lowercased string. -/
def rejectHit (rs : List Str) (s : Str) : Bool :=
  rs.any fun sch => (lowerStr sch ++ [':']).isPrefixOf (lowerStr s)

/-- Path normalization step of canonicalize_url: an empty path becomes "/";
a non-root path ending in '/' has its trailing slashes stripped
(path.rstrip("/")). -/
def canonNormPath (trim : Bool) (p : Str) : Str :=
  let p := if p = [] then ['/'] else p
  if trim ∧ p ≠ ['/'] ∧ endsWithChar '/' p then rstripSlash p else p

/-- Model of base.canonicalize_url (src/crawlers/base.py).  none models a
None return; a ValueError raised by urlparse is also modelled as none. -/
def canonicalizeUrl (opts : CanonOpts) (url : Str) : Option Str :=
  if pyStrip url = [] then none
  else
    if rejectHit opts.rejectSchemes
        (if opts.encodeSpaces then encodeSpacesF (pyStrip url) else pyStrip url) then none
    else
      match urlparseM
          (if opts.encodeSpaces then encodeSpacesF (pyStrip url) else pyStrip url) with
      | none => none
      | some p =>
        if p.scheme = [] ∨ p.netloc = [] then none
        else
          if (match opts.allowedHost with
              | some ah =>
                decide ((if opts.lowercaseSchemeHost then lowerStr p.netloc
                         else p.netloc) ≠ lowerStr ah)
              | none => false) then none
          else
            some (urlunparseF
              ⟨if opts.lowercaseSchemeHost then lowerStr p.scheme else p.scheme,
               if opts.lowercaseSchemeHost then lowerStr p.netloc else p.netloc,
               canonNormPath opts.trimTrailingSlash p.path,
               p.params, p.query,
               if opts.stripFragment then [] else p.fragment⟩)

/-- Model of devb_publications._canonicalize_url: base canonicalization
with literal spaces percent-encoded, the default rejected schemes, no host
filter.  (That function repeats base.canonicalize_url's steps verbatim.) -/
def devbCanonicalize (url : Str) : Option Str :=
  canonicalizeUrl { encodeSpaces := true } url

/-- Host of the telephone directory site. -/
def telHost : Str := "tel.directory.gov.hk".data

/-- Model of directory/tel_directory._canonicalize_tel_url: base
canonicalization restricted to the tel.directory.gov.hk host, with no
rejected-scheme check and no space encoding. -/
def telCanonicalize (url : Str) : Option Str :=
  canonicalizeUrl { rejectSchemes := [], allowedHost := some telHost } url

/-- Model of directory/tel_directory._canonicalize_any_url: lowercase
scheme and host, drop the fragment, keep the path verbatim (no empty-path
default and no trailing-slash trim), rejecting only javascript:. -/
def anyCanonicalize (url : Str) : Option Str :=
  let s := pyStrip url
  if s = [] then none
  else if ("javascript:".data).isPrefixOf (lowerStr s) then none
  else
    match urlparseM s with
    | none => none
    | some p =>
      if p.scheme = [] ∨ p.netloc = [] then none
      else
        some (urlunparseF
          ⟨lowerStr p.scheme, lowerStr p.netloc, p.path, p.params, p.query, []⟩)

/-- Model of base.path_ext / devb_publications._path_ext: the final
extension of the lowercased parse path, with a leading dot, or "" when the
path has no dot.  (Python would propagate a urlparse ValueError; the
crawlers only call this on canonicalizer outputs, which re-parse.) -/
def pathExt (url : Str) : Str :=
  match urlparseM url with
  | none => []
  | some p =>
    let path := lowerStr p.path
    if '.' ∈ path then '.' :: (splitAtLastChar '.' path).2
    else []

/-! ## Retrying fetcher (base.get_with_retries)

The HTTP transport is an oracle mapping the attempt index to either a
response or a network-level exception (requests.RequestException).  A
response carries its status code and the parse outcome of its Retry-After
header: none = header absent or empty (falsy), some none = present but
float() raises ValueError, some (some q) = parses as q seconds.  Sleep
durations are rationals (the source uses floats; the claims only concern
which sleeps happen and how many requests are issued).  random.uniform is
modelled by a draw oracle indexed by the attempt. -/

/-- Response of the transport oracle. -/
structure TResp where
  status : Nat
  retryAfter : Option (Option ℚ)
  deriving Repr, DecidableEq

/-- One transport attempt: a response, or a network-level exception. -/
inductive TResult where
  | resp (r : TResp)
  | exn
  deriving Repr, DecidableEq

/-- Observable outcome of get_with_retries: a returned response, a raised
HTTP status error, or a raised network error. -/
inductive FetchOutcome where
  | success (r : TResp)
  | httpError (status : Nat)
  | netError
  deriving Repr, DecidableEq

/-- Observable events of get_with_retries: a GET request at an attempt
index, a sleep for a parsed Retry-After value, a backoff sleep. -/
inductive FetchEvent where
  | get (attempt : Nat)
  | sleepRetryAfter (seconds : ℚ)
  | sleepBackoff (seconds : ℚ)
  deriving Repr, DecidableEq

/-- Statuses retried by get_with_retries (its retry_statuses default). -/
def retryStatuses : List Nat := [429, 500, 502, 503, 504]

/-- Status range for which requests' Response.raise_for_status raises. -/
def raisesForStatus (status : Nat) : Bool :=
  400 ≤ status ∧ status < 600

/-- Model of base.compute_backoff_seconds: min(base * 2^attempt, 30) plus,
when jitter > 0, a uniform draw from [0, jitter] (supplied by the oracle). -/
def computeBackoffSeconds (attempt : Nat) (base jitter draw : ℚ) : ℚ :=
  min (base * 2 ^ attempt) 30 + (if jitter > 0 then draw else 0)

/-- Sleep events of the retry branch for a retryable status: the parsed
Retry-After value when the header parses (ValueError is swallowed), then
the computed backoff. -/
def retrySleeps (r : TResp) (attempt : Nat) (base jitter : ℚ)
    (draw : Nat → ℚ) : List FetchEvent :=
  (match r.retryAfter with
   | some (some q) => [FetchEvent.sleepRetryAfter q]
   | _ => []) ++
  [FetchEvent.sleepBackoff (computeBackoffSeconds attempt base jitter (draw attempt))]

/-- One pass of the get_with_retries loop from a given attempt index, with
fuel = number of loop iterations still allowed by range(max_retries + 1).
Returns the outcome and the event log.  Note that raise_for_status raises
requests.HTTPError, a subclass of RequestException, so it is caught by the
loop's except clause: a non-retryable 4xx/5xx response is therefore also
retried until the last attempt.  The fuel-exhausted case models the final
unreachable "raise last_err" as a network error. -/
def getWithRetriesAux (transport : Nat → TResult) (maxRetries : Nat)
    (base jitter : ℚ) (draw : Nat → ℚ) :
    (fuel attempt : Nat) → FetchOutcome × List FetchEvent
  | 0, _ => (.netError, [])
  | fuel + 1, attempt =>
    match transport attempt with
    | .exn =>
      if attempt ≥ maxRetries then (.netError, [.get attempt])
      else
        let ev := [FetchEvent.get attempt,
          FetchEvent.sleepBackoff (computeBackoffSeconds attempt base jitter (draw attempt))]
        let r := getWithRetriesAux transport maxRetries base jitter draw fuel (attempt + 1)
        (r.1, ev ++ r.2)
    | .resp resp =>
      if resp.status ∈ retryStatuses then
        if attempt ≥ maxRetries then (.httpError resp.status, [.get attempt])
        else
          let ev := FetchEvent.get attempt :: retrySleeps resp attempt base jitter draw
          let r := getWithRetriesAux transport maxRetries base jitter draw fuel (attempt + 1)
          (r.1, ev ++ r.2)
      else if raisesForStatus resp.status then
        if attempt ≥ maxRetries then (.httpError resp.status, [.get attempt])
        else
          let ev := [FetchEvent.get attempt,
            FetchEvent.sleepBackoff (computeBackoffSeconds attempt base jitter (draw attempt))]
          let r := getWithRetriesAux transport maxRetries base jitter draw fuel (attempt + 1)
          (r.1, ev ++ r.2)
      else (.success resp, [.get attempt])

/-- Model of base.get_with_retries: run the loop for attempts
0..max_retries. -/
def getWithRetries (transport : Nat → TResult) (maxRetries : Nat)
    (base jitter : ℚ) (draw : Nat → ℚ) : FetchOutcome × List FetchEvent :=
  getWithRetriesAux transport maxRetries base jitter draw (maxRetries + 1) 0

/-- GET-request events of the fetch log. -/
def isGetEvent : FetchEvent → Bool
  | .get _ => true
  | _ => false

/-! ## Shared crawl-model helpers -/

/-- Truthiness of an optional string (None and "" are falsy). -/
def pyTruthyOS (o : Option Str) : Bool :=
  match o with
  | some v => v ≠ []
  | none => false

/-- Model of str.split() with no argument: whitespace-separated words. -/
def wordsF (s : Str) : List Str :=
  (s.foldr
    (fun c acc =>
      if c.isWhitespace then [] :: acc
      else
        match acc with
        | [] => [[c]]
        | w :: ws => (c :: w) :: ws)
    []).filter (· ≠ [])

/-- Model of " ".join(s.split()): collapse whitespace runs to single
spaces and trim. -/
def pyNormWs (s : Str) : Str :=
  List.intercalate [' '] (wordsF s)

/-- Hex digit value, for percent-decoding. -/
def hexVal (c : Char) : Option Nat :=
  if '0' ≤ c ∧ c ≤ '9' then some (c.toNat - 48)
  else if 'a' ≤ c ∧ c ≤ 'f' then some (c.toNat - 87)
  else if 'A' ≤ c ∧ c ≤ 'F' then some (c.toNat - 55)
  else none

/-- Model of urllib.parse.unquote restricted to single-byte escapes:
"%XY" with hex digits becomes the character with code 16*X+Y.  (Python
decodes multi-byte UTF-8 escape runs; no claim depends on those.) -/
def pyUnquote : Str → Str
  | [] => []
  | '%' :: a :: b :: rest =>
    match hexVal a, hexVal b with
    | some x, some y => Char.ofNat (16 * x + y) :: pyUnquote rest
    | _, _ => '%' :: pyUnquote (a :: b :: rest)
  | c :: rest => c :: pyUnquote rest

/-- Link texts too generic to use as document names
(devb_publications._GENERIC_LINK_TEXTS). -/
def genericLinkTexts : List Str :=
  ["more".data, "download".data, "click here".data, "here".data,
   "view".data, "open".data]

/-- Model of devb_publications._infer_doc_name: use the link text unless
it is empty or generic, else derive a name from the last path segment. -/
def inferDocName (linkText : Str) (url : Str) : Option Str :=
  let t := pyStrip linkText
  if t ≠ [] ∧ lowerStr t ∉ genericLinkTexts then some t
  else
    let path := match urlparseM url with | some p => p.path | none => []
    let rs := rstripSlash path
    let seg := if '/' ∈ rs then (splitAtLastChar '/' rs).2 else rs
    if seg = [] then (if t ≠ [] then some t else none)
    else
      let seg := pyUnquote seg
      let seg := if '.' ∈ seg then (splitAtLastChar '.' seg).1 else seg
      let seg := seg.map fun c => if c = '_' ∨ c = '-' then ' ' else c
      let seg := pyNormWs seg
      if seg = [] then (if t ≠ [] then some t else none) else some seg

/-- Model of devb_publications._path_is_excluded. -/
def pathIsExcluded (path : Str) (excl : List Str) : Bool :=
  if excl = [] then false
  else
    let p := if path = [] then ['/'] else path
    excl.any fun pre =>
      if pre = [] then false
      else if endsWithChar '/' pre then pre.isPrefixOf p
      else p = pre ∨ (pre ++ ['/']).isPrefixOf p

/-- Metadata values stored in a record's meta dict. -/
inductive MV where
  | s (v : Str)
  | os (v : Option Str)
  | n (v : Nat)
  | b (v : Bool)
  deriving Repr, DecidableEq

/-- Python dict assignment d[k] = v: overwrite in place, else append. -/
def dictSet (d : List (Str × MV)) (k : Str) (v : MV) : List (Str × MV) :=
  if d.any (·.1 = k) then d.map (fun kv => if kv.1 = k then (k, v) else kv)
  else d ++ [(k, v)]

/-- Python dict.update with string values. -/
def dictUpdate (d : List (Str × MV)) (es : List (Str × Str)) : List (Str × MV) :=
  es.foldl (fun d kv => dictSet d kv.1 (.s kv.2)) d

/-- Lexicographic Python string comparison, strict. -/
def pyStrLt : Str → Str → Bool
  | [], [] => false
  | [], _ :: _ => true
  | _ :: _, [] => false
  | a :: as, b :: bs => a < b ∨ (a = b ∧ pyStrLt as bs)

/-- Lexicographic Python string comparison, non-strict. -/
def pyStrLe : Str → Str → Bool
  | [], _ => true
  | _ :: _, [] => false
  | a :: as, b :: bs => a < b ∨ (a = b ∧ pyStrLe as bs)

/-- Python tuple comparison on pairs of strings, non-strict. -/
def pyPairLe (a b : Str × Str) : Bool :=
  pyStrLt a.1 b.1 ∨ (a.1 = b.1 ∧ pyStrLe a.2 b.2)

/-! ## Frontier crawl engine (devb_publications.Crawler.crawl)

The HTTP and HTML boundary is an oracle world : url → Option page.  A page
carries the outputs the crawl loop would obtain from the external parsers
on that page's HTML: parse_standard_consultancy_documents_page,
parse_standard_contract_documents_page, and _iter_links (scoped link
extraction with the whole-page fallback).  world u = none models a fetch
whose retries are exhausted: the exception propagates and aborts the crawl
(modelled by the loop returning none). -/

/-- Allowed document extensions (_ALLOWED_DOC_EXTS). -/
def allowedDocExts : List Str := [".pdf".data, ".doc".data, ".docx".data]

/-- STANDARD_CONSULTANCY_DOCS_PREFIX. -/
def consultancyDocsPref : Str :=
  "/en/publications_and_press_releases/publications/standard_consultancy_document/".data

/-- STANDARD_CONTRACT_DOCS_PREFIX. -/
def contractDocsPref : Str :=
  "/en/publications_and_press_releases/publications/standard_contract_documents/".data

/-- Document hit returned by the standard-documents page parsers. -/
structure DocHit where
  url : Str
  title : Option Str
  issueDateRaw : Option Str
  meta : List (Str × Str)
  deriving Repr, DecidableEq

/-- Anchor extracted from a page (utils.html_links.HtmlLink), href already
resolved against the page URL. -/
structure HLink where
  href : Str
  text : Str
  deriving Repr, DecidableEq

/-- Parser outputs for one fetched page of the devb_publications crawl. -/
structure DevbPage where
  consultancy : List DocHit × List Str
  contract : List DocHit × List Str
  links : List HLink
  deriving Repr, DecidableEq

/-- Queue item of the frontier (devb_publications._QueueItem). -/
structure DQItem where
  url : Str
  depth : Nat
  discoveredFrom : Option Str
  deriving Repr, DecidableEq

/-- Emitted record (base.UrlRecord) with dict-valued meta. -/
structure DevbRec where
  url : Str
  name : Option Str
  discoveredAt : Str
  source : Str
  meta : List (Str × MV)
  deriving Repr, DecidableEq

/-- Configuration of one devb_publications run, already extracted from the
settings tree.  baseNetloc is base_parsed.netloc.lower(). -/
structure DevbCfg where
  baseNetloc : Str
  seedUrl : Str
  scopePref : Str
  excl : List Str
  maxDepth : Nat
  maxPages : Nat
  maxLinksPerPage : Nat
  maxRecords : Nat
  startedAt : Str
  deriving Repr

/-- Crawl-loop state: frontier queue, visited and skipped sets,
seen-document set, emitted records, and the log of fetched (url, depth)
pairs (the arguments of the _get_with_retries calls, in order). -/
structure DevbState where
  queue : List DQItem
  visited : List Str
  skipped : List Str
  seenDocs : List Str
  out : List DevbRec
  fetchLog : List (Str × Nat)
  deriving Repr

/-- Meta dict of a standard-documents record before the optional
issue-date and hit-meta updates. -/
def specialDocMeta (seedCan itemUrl : Str) (depth : Nat) (ext : Str)
    (flagKey : Str) : List (Str × MV) :=
  [("seed_url".data, .s seedCan), ("discovered_from".data, .s itemUrl),
   ("depth".data, .n depth), ("file_ext".data, .s (ext.dropWhile (· = '.'))),
   ("scope_page".data, .s itemUrl), (flagKey, .b true)]

/-- Record emitted for one consultancy/contract document hit, with the
meta dict built from specialDocMeta plus the optional issue date and the
hit's own meta entries. -/
def devbHitRec (cfg : DevbCfg) (seedCan : Str) (item : DQItem) (flagKey : Str)
    (hit : DocHit) (can : Str) : DevbRec :=
  ⟨can, hit.title, cfg.startedAt, "devb_publications".data,
   (let meta := specialDocMeta seedCan item.url item.depth (pathExt can) flagKey
    let meta :=
      match hit.issueDateRaw with
      | some v => if v ≠ [] then dictSet meta "issue_date_raw".data (.s v) else meta
      | none => meta
    if hit.meta ≠ [] then dictUpdate meta hit.meta else meta)⟩

/-- Record emitted for a document link of the generic branch. -/
def devbLinkRec (cfg : DevbCfg) (seedCan : Str) (item : DQItem) (link : HLink)
    (can : Str) : DevbRec :=
  ⟨can, inferDocName link.text can, cfg.startedAt, "devb_publications".data,
   [("seed_url".data, .s seedCan), ("discovered_from".data, .s item.url),
    ("depth".data, .n item.depth), ("link_text".data, .s link.text),
    ("file_ext".data, .s ((pathExt can).dropWhile (· = '.'))),
    ("scope_page".data, .s item.url)]⟩

/-- Document-emission loop of the consultancy/contract branches: for each
hit, canonicalize, filter by extension, host and the seen-documents set,
emit a record, and stop early when the record cap is reached.  Returns the
new seen-set and output list. -/
def processHits (cfg : DevbCfg) (seedCan : Str) (item : DQItem)
    (flagKey : Str) :
    List DocHit → List Str → List DevbRec → List Str × List DevbRec
  | [], seen, out => (seen, out)
  | hit :: rest, seen, out =>
    match devbCanonicalize hit.url with
    | none => processHits cfg seedCan item flagKey rest seen out
    | some can =>
      if pathExt can ∉ allowedDocExts then
        processHits cfg seedCan item flagKey rest seen out
      else
        match urlparseM can with
        | none => processHits cfg seedCan item flagKey rest seen out
        | some lp =>
          if lowerStr lp.netloc ≠ cfg.baseNetloc then
            processHits cfg seedCan item flagKey rest seen out
          else if can ∈ seen then processHits cfg seedCan item flagKey rest seen out
          else
            if (out ++ [devbHitRec cfg seedCan item flagKey hit can]).length
                ≥ cfg.maxRecords then
              (can :: seen, out ++ [devbHitRec cfg seedCan item flagKey hit can])
            else processHits cfg seedCan item flagKey rest (can :: seen)
              (out ++ [devbHitRec cfg seedCan item flagKey hit can])

/-- Page-enqueue loop of the consultancy/contract branches (only reached
when item.depth < max_depth): canonicalize each candidate, keep same-host
pages under the branch's own path, not excluded, and not already
visited or skipped. -/
def specialAdds (cfg : DevbCfg) (pre : Str) (item : DQItem)
    (visited skipped : List Str) (pageLinks : List Str) : List DQItem :=
  pageLinks.filterMap fun nextUrl =>
    match devbCanonicalize nextUrl with
    | none => none
    | some nextCan =>
      match urlparseM nextCan with
      | none => none
      | some np =>
        if lowerStr np.netloc ≠ cfg.baseNetloc then none
        else if ¬ pre.isPrefixOf np.path then none
        else if pathIsExcluded np.path cfg.excl then none
        else if nextCan ∉ visited ∧ nextCan ∉ skipped then
          some ⟨nextCan, item.depth + 1, some item.url⟩
        else none

/-- Per-link loop of the generic branch: emit same-host document links not
yet seen (stopping the loop at the record cap), and collect in-scope
same-host page links for the queue when the depth limit has not been
reached.  Returns (seen-documents, output, queue additions). -/
def processLinksGeneric (cfg : DevbCfg) (seedCan : Str) (item : DQItem)
    (visited : List Str) :
    List HLink → List Str → List DevbRec → List DQItem →
    List Str × List DevbRec × List DQItem
  | [], seen, out, adds => (seen, out, adds)
  | link :: rest, seen, out, adds =>
    match devbCanonicalize link.href with
    | none => processLinksGeneric cfg seedCan item visited rest seen out adds
    | some can =>
      if pathExt can ∈ allowedDocExts then
        match urlparseM can with
        | none => processLinksGeneric cfg seedCan item visited rest seen out adds
        | some lp =>
          if lowerStr lp.netloc ≠ cfg.baseNetloc then
            processLinksGeneric cfg seedCan item visited rest seen out adds
          else if can ∈ seen then
            processLinksGeneric cfg seedCan item visited rest seen out adds
          else
            if (out ++ [devbLinkRec cfg seedCan item link can]).length
                ≥ cfg.maxRecords then
              (can :: seen, out ++ [devbLinkRec cfg seedCan item link can], adds)
            else processLinksGeneric cfg seedCan item visited rest (can :: seen)
              (out ++ [devbLinkRec cfg seedCan item link can]) adds
      else
        if item.depth ≥ cfg.maxDepth then
          processLinksGeneric cfg seedCan item visited rest seen out adds
        else
          match urlparseM can with
          | none => processLinksGeneric cfg seedCan item visited rest seen out adds
          | some lp =>
            if lowerStr lp.netloc ≠ cfg.baseNetloc then
              processLinksGeneric cfg seedCan item visited rest seen out adds
            else if ¬ cfg.scopePref.isPrefixOf lp.path then
              processLinksGeneric cfg seedCan item visited rest seen out adds
            else if pathIsExcluded lp.path cfg.excl then
              processLinksGeneric cfg seedCan item visited rest seen out adds
            else if can ∉ visited then
              processLinksGeneric cfg seedCan item visited rest seen out
                (adds ++ [⟨can, item.depth + 1, some item.url⟩])
            else
              processLinksGeneric cfg seedCan item visited rest seen out adds

/-- State after marking a popped item visited and fetching it: the rest of
the queue, the item marked visited, and the fetch logged. -/
def devbFetchState (st : DevbState) (item : DQItem) (rest : List DQItem) : DevbState :=
  { st with
    queue := rest
    visited := item.url :: st.visited
    fetchLog := st.fetchLog ++ [(item.url, item.depth)] }

/-- State after the document-emission loop of a consultancy/contract
branch. -/
def devbSpecialState (cfg : DevbCfg) (seedCan : Str) (item : DQItem)
    (flagKey : Str) (hits : List DocHit) (st : DevbState) : DevbState :=
  { st with
    seenDocs := (processHits cfg seedCan item flagKey hits st.seenDocs st.out).1
    out := (processHits cfg seedCan item flagKey hits st.seenDocs st.out).2 }

/-- State after the page-enqueue loop of a consultancy/contract branch
(enqueueing is suppressed once the item's depth has reached max_depth). -/
def devbEnqueueSpecial (cfg : DevbCfg) (pre : Str) (item : DQItem)
    (pageLinks : List Str) (st : DevbState) : DevbState :=
  { st with queue := st.queue ++
      (if item.depth < cfg.maxDepth then
        specialAdds cfg pre item st.visited st.skipped pageLinks
      else []) }

/-- State after the per-link loop of the generic branch. -/
def devbGenericState (cfg : DevbCfg) (seedCan : Str) (item : DQItem)
    (page : DevbPage) (st : DevbState) : DevbState :=
  { st with
    seenDocs := (processLinksGeneric cfg seedCan item st.visited
      (if cfg.maxLinksPerPage > 0 then page.links.take cfg.maxLinksPerPage
       else page.links) st.seenDocs st.out []).1
    out := (processLinksGeneric cfg seedCan item st.visited
      (if cfg.maxLinksPerPage > 0 then page.links.take cfg.maxLinksPerPage
       else page.links) st.seenDocs st.out []).2.1
    queue := st.queue ++ (processLinksGeneric cfg seedCan item st.visited
      (if cfg.maxLinksPerPage > 0 then page.links.take cfg.maxLinksPerPage
       else page.links) st.seenDocs st.out []).2.2 }

/-- The while loop of devb_publications.Crawler.crawl, fuel-indexed.
Fuel exhaustion returns the current state (every real run is a run with
enough fuel, and all claims proved about the loop hold for every fuel).
none models an exception aborting the crawl (fetch failure, or a
ValueError from urlparse; the latter cannot occur on the canonical URLs
that reach the queue). -/
def devbLoop (world : Str → Option DevbPage) (cfg : DevbCfg) (seedCan : Str) :
    Nat → DevbState → Option DevbState
  | 0, st => some st
  | fuel + 1, st =>
    match st.queue with
    | [] => some st
    | item :: rest =>
      if item.url ∈ st.visited then
        devbLoop world cfg seedCan fuel { st with queue := rest }
      else if item.url ∈ st.skipped then
        devbLoop world cfg seedCan fuel { st with queue := rest }
      else if st.visited.length ≥ cfg.maxPages then some { st with queue := rest }
      else
        match urlparseM item.url with
        | none => none
        | some p =>
          if lowerStr p.netloc ≠ cfg.baseNetloc then
            devbLoop world cfg seedCan fuel { st with queue := rest }
          else if pathIsExcluded p.path cfg.excl then
            devbLoop world cfg seedCan fuel
              { st with queue := rest, skipped := item.url :: st.skipped }
          else if ¬ cfg.scopePref.isPrefixOf p.path then
            devbLoop world cfg seedCan fuel { st with queue := rest }
          else
            match world item.url with
            | none => none
            | some page =>
              if consultancyDocsPref.isPrefixOf p.path then
                if (devbSpecialState cfg seedCan item
                    "standard_consultancy_document".data page.consultancy.1
                    (devbFetchState st item rest)).out.length ≥ cfg.maxRecords then
                  some (devbSpecialState cfg seedCan item
                    "standard_consultancy_document".data page.consultancy.1
                    (devbFetchState st item rest))
                else
                  devbLoop world cfg seedCan fuel
                    (devbEnqueueSpecial cfg consultancyDocsPref item
                      page.consultancy.2
                      (devbSpecialState cfg seedCan item
                        "standard_consultancy_document".data page.consultancy.1
                        (devbFetchState st item rest)))
              else if contractDocsPref.isPrefixOf p.path then
                if (devbSpecialState cfg seedCan item
                    "standard_contract_documents".data page.contract.1
                    (devbFetchState st item rest)).out.length ≥ cfg.maxRecords then
                  some (devbSpecialState cfg seedCan item
                    "standard_contract_documents".data page.contract.1
                    (devbFetchState st item rest))
                else
                  devbLoop world cfg seedCan fuel
                    (devbEnqueueSpecial cfg contractDocsPref item
                      page.contract.2
                      (devbSpecialState cfg seedCan item
                        "standard_contract_documents".data page.contract.1
                        (devbFetchState st item rest)))
              else
                if (devbGenericState cfg seedCan item page
                    (devbFetchState st item rest)).out.length ≥ cfg.maxRecords then
                  some (devbGenericState cfg seedCan item page
                    (devbFetchState st item rest))
                else
                  devbLoop world cfg seedCan fuel
                    (devbGenericState cfg seedCan item page
                      (devbFetchState st item rest))

/-- Initial crawl state from the canonicalized seed. -/
def devbInit (seedCan : Str) : DevbState :=
  ⟨[⟨seedCan, 0, none⟩], [], [], [], [], []⟩

/-- Model of devb_publications.Crawler.crawl up to the final sort: returns
the final loop state; an unparseable seed gives the empty run. -/
def devbCrawl (world : Str → Option DevbPage) (cfg : DevbCfg) (fuel : Nat) :
    Option DevbState :=
  match devbCanonicalize cfg.seedUrl with
  | none => some ⟨[], [], [], [], [], []⟩
  | some seedCan => devbLoop world cfg seedCan fuel (devbInit seedCan)

/-- Model of the complete devb_publications.Crawler.crawl: the final state's
records sorted by URL (out.sort(key=lambda r: r.url or "")). -/
def devbCrawlRecords (world : Str → Option DevbPage) (cfg : DevbCfg)
    (fuel : Nat) : Option (List DevbRec) :=
  (devbCrawl world cfg fuel).map fun st =>
    List.insertionSort (fun a b => pyStrLe a.url b.url = true) st.out

/-- Facts holding for every fetch performed by the devb crawl loop: the
fetched page's queue-item depth respects the depth limit, and its URL
parses to a page on the crawl host, inside the scope path, and not
excluded. -/
def devbFetchFacts (cfg : DevbCfg) (e : Str × Nat) : Prop :=
  e.2 ≤ cfg.maxDepth ∧
  ∃ p : UrlParts, urlparseM e.1 = some p ∧
    lowerStr p.netloc = cfg.baseNetloc ∧
    cfg.scopePref.isPrefixOf p.path = true ∧
    pathIsExcluded p.path cfg.excl = false

/-- Facts holding for every record emitted by the devb crawl loop: its URL
is an output of the crawler's canonicalizer and carries an allowed
document extension. -/
def devbRecFacts (r : DevbRec) : Prop :=
  ∃ raw, devbCanonicalize raw = some r.url ∧ pathExt r.url ∈ allowedDocExts

/-- Inductive invariant of the devb crawl loop. -/
def DevbInv (cfg : DevbCfg) (st : DevbState) : Prop :=
  (∀ q ∈ st.queue, q.depth ≤ cfg.maxDepth) ∧
  st.visited = (st.fetchLog.map Prod.fst).reverse ∧
  st.visited.Nodup ∧
  (∀ u ∈ st.skipped, u ∉ st.visited) ∧
  (∀ e ∈ st.fetchLog, devbFetchFacts cfg e) ∧
  (∀ r ∈ st.out, devbRecFacts r)

/-! ## Directory dedup model (directory/tel_directory.Crawler.crawl)

The HTTP/HTML boundary is again an oracle world : url → Option page.  A
page carries the outputs of the page-level HTML parsers on that page's
text: the office-tree breadcrumb map (_extract_office_tree_paths), the
table rows found by _TableRowParser (the HTMLParser state machine), and
the anchors found by extract_links.  The row-to-person extraction loop of
_extract_people_from_html and everything downstream of it is translated
from the source.  Post-title abbreviation expansion
(_expand_post_title_abbreviations) depends on an external JSON data file
and a compiled regex; it is passed in as an oracle, and no claim concerns
post titles. -/

/-- Truthy option: "x or None" on an optional string. -/
def pyOrNone (o : Option Str) : Option Str :=
  if pyTruthyOS o then o else none

/-- Model of Python "needle in haystack" on strings: contiguous substring
test. -/
def isSubstr (needle hay : Str) : Bool :=
  hay.tails.any fun t => needle.isPrefixOf t

/-- Generic navigation labels never used as breadcrumb segments
(_SKIP_DEPT_SEGMENTS). -/
def skipDeptSegments : List Str :=
  ["back".data, "help".data, "disclaimer".data, "copyright notice".data,
   "skip to content".data, "govhk".data]

/-- Characters matched by the A-Z / 0-9 alternatives of
_ALPHA_INDEX_SEGMENT_RE. -/
def isAZ09 (c : Char) : Bool :=
  ('A' ≤ c ∧ c ≤ 'Z') ∨ ('0' ≤ c ∧ c ≤ '9')

/-- Dash characters of _ALPHA_INDEX_SEGMENT_RE (hyphen or en dash). -/
def isDashChar (c : Char) : Bool :=
  c = '-' ∨ c = '–'

/-- Tail matcher for _ALPHA_INDEX_SEGMENT_RE after an initial letter or
digit: zero or more groups of optional whitespace, a dash, optional
whitespace and another letter/digit.  Fuel-indexed (each group consumes at
least two characters, so fuel = length always suffices). -/
def alphaIndexTail : Nat → Str → Bool
  | _, [] => true
  | 0, _ :: _ => false
  | fuel + 1, s =>
    match s.dropWhile Char.isWhitespace with
    | [] => false
    | d :: rest =>
      if isDashChar d then
        match rest.dropWhile Char.isWhitespace with
        | [] => false
        | x :: rest' => if isAZ09 x then alphaIndexTail fuel rest' else false
      else false

/-- Full match of _ALPHA_INDEX_SEGMENT_RE: a pagination index such as
"A", "0 - 9" or "A - Z". -/
def alphaIndexMatch (s : Str) : Bool :=
  match s with
  | [] => false
  | c :: rest => isAZ09 c ∧ alphaIndexTail rest.length rest

/-- Model of _clean_department_segment: whitespace-normalize a link text
and drop pagination indexes, known skip words and "skip to" artifacts. -/
def cleanDeptSegment (text : Str) : Option Str :=
  let t := pyNormWs text
  if t = [] then none
  else if alphaIndexMatch t then none
  else
    let tl := lowerStr t
    if tl ∈ skipDeptSegments then none
    else if ("skip to".data).isPrefixOf tl then none
    else some t

/-- Model of _normalize_department_id. -/
def normDeptId (v : Option Str) : Option Str :=
  let t := pyNormWs (v.getD [])
  if t = [] then none else some t

/-- Model of _effective_department_path: enquiry-like contacts are pinned
to the department root; others keep the full breadcrumb. -/
def effectiveDeptPath (deptPath : List Str) (isEnq : Bool)
    (deptRoot : Option Str) : List Str :=
  if deptPath = [] ∧ ¬ pyTruthyOS deptRoot then []
  else if isEnq then
    match normDeptId deptRoot with
    | some root => [root]
    | none => match deptPath with | p :: _ => [p] | [] => []
  else deptPath

/-- Model of _department_id_from_path: the breadcrumb joined by " -> ". -/
def deptIdFromPath (path : List Str) : Option Str :=
  if path = [] then none
  else normDeptId (some (List.intercalate " -> ".data path))

/-- Model of _dedup_key: "phone|department". -/
def dedupKeyF (phoneNorm : Str) (deptId : Option Str) : Str :=
  phoneNorm ++ '|' :: (normDeptId (some (deptId.getD []))).getD []

/-- Model of _is_crawlable_tel_page: canonical tel-host URL whose
lowercased path ends in "_eng.html" and is not a zip-instruction page. -/
def isCrawlableTelPage (url : Str) : Bool :=
  match telCanonicalize url with
  | none => false
  | some can =>
    let path := lowerStr ((urlparseM can).elim [] (·.path))
    ("_eng.html".data).isSuffixOf path ∧ ¬ isSubstr "/zipinstruct/".data path

/-- Model of _normalize_phone: digits only, with a leading 852 country
code stripped when the rest is still a plausible local number. -/
def normPhone (v : Str) : Option Str :=
  let s := pyStrip v
  if s = [] then none
  else
    let digits := s.filter Char.isDigit
    if digits = [] then none
    else
      let digits :=
        if ("852".data).isPrefixOf digits ∧ digits.length > 8 then digits.drop 3
        else digits
      if digits = [] then none else some digits

/-- Model of _normalize_email: lowercased, must contain '@'. -/
def normEmail (v : Str) : Option Str :=
  let s := lowerStr (pyStrip v)
  if s = [] then none
  else if '@' ∉ s then none else some s

/-- Table cell (directory/tel_directory._Cell). -/
structure TCell where
  text : Str
  href : Option Str
  deriving Repr, DecidableEq

/-- Table row produced by _TableRowParser (directory/tel_directory._Row). -/
structure TRow where
  kind : Str
  cells : List TCell
  nameText : Option Str
  nameHref : Option Str
  telText : Option Str
  emailText : Option Str
  deriving Repr, DecidableEq

/-- Person dict built by _extract_people_from_html. -/
structure TPerson where
  name : Str
  personUrl : Option Str
  postTitle : Option Str
  officeTel : Option Str
  officeTelNorm : Str
  email : Option Str
  isEnquiryLike : Bool
  departmentOverride : Option Str
  deriving Repr, DecidableEq

/-- Model of the nested _strip_prefix helper of _extract_people_from_html:
case-insensitively strip a leading label and re-trim. -/
def stripLabel (text : Str) (lab : Str) : Str :=
  let t := pyStrip text
  if t = [] then []
  else
    let p := pyStrip lab
    if p = [] then t
    else if (lowerStr p).isPrefixOf (lowerStr t) then pyStrip (t.drop p.length)
    else t

/-- Model of _service_department_from_cell: the department name after the
"Bureau / Department / Related Organisation" label. -/
def serviceDeptFromCell (text : Str) : Option Str :=
  let t := pyNormWs text
  if t = [] then none
  else
    let t := pyNormWs (stripLabel t "Bureau / Department / Related Organisation".data)
    if t = [] then none else some t

/-- Model of the nested _is_enquiry_like: generic name, generic or empty
post title, or a service-handler detail link. -/
def isEnquiryLikeF (name : Str) (postTitle : Option Str) (href : Option Str) : Bool :=
  let nl := lowerStr (pyNormWs name)
  if nl ∈ ["enquiry".data, "general enquiry".data, "general inquiry".data,
           "enquiries".data] then true
  else
    let pt := lowerStr (pyNormWs (postTitle.getD []))
    if pt ∈ ["-".data, "enquiry".data, "general enquiry".data] then true
    else
      let hl := lowerStr (href.getD [])
      isSubstr "service_details.jsp".data hl ∨ isSubstr "service".data hl

/-- Model of the row loop of _extract_people_from_html: keep rows with a
name link and at least two cells, read name / post title / office tel /
email (with their label markers stripped), and admit the row only when the
office telephone normalizes to a phone number. -/
def extractPeopleFromRows (rows : List TRow) : List TPerson :=
  rows.filterMap fun row =>
    match row.nameHref with
    | none => none
    | some nameHref =>
      if row.cells.length < 2 then none
      else
        let isService := row.kind == "service".data ||
          isSubstr "service_details.jsp".data (lowerStr nameHref)
        let name := stripLabel (pyStrip (row.nameText.getD [])) "Full Name".data
        if name = [] then none
        else if lowerStr (pyStrip name) = "(vacant)".data then none
        else
          let postTitleRaw := pyStrip (((row.cells.get? 1).map (·.text)).getD [])
          let postTitle := stripLabel postTitleRaw "Post Title".data
          let telFull := pyStrip (row.telText.getD [])
          let telFull :=
            if telFull = [] ∧ row.cells.length ≥ 3 then
              pyStrip (((row.cells.get? 2).map (·.text)).getD [])
            else telFull
          let telRaw := stripLabel telFull "Office Tel".data
          let emailFull := pyStrip (row.emailText.getD [])
          let emailFull :=
            if emailFull = [] ∧ row.cells.length ≥ 4 then
              pyStrip (((row.cells.get? 3).map (·.text)).getD [])
            else emailFull
          let emailRaw := stripLabel emailFull "Email".data
          match normPhone telRaw with
          | none => none
          | some phone =>
            some
              { name := name
                personUrl := anyCanonicalize nameHref
                postTitle := if postTitle = [] then none else some postTitle
                officeTel := if telRaw = [] then none else some telRaw
                officeTelNorm := phone
                email := normEmail emailRaw
                isEnquiryLike :=
                  isEnquiryLikeF name (if postTitle = [] then none else some postTitle)
                    (some nameHref) || isService
                departmentOverride :=
                  if isService then serviceDeptFromCell postTitleRaw else none }

/-- Model of the _record_department_root closure. -/
def recordDeptRoot (deptOver : Option Str) (deptPath : List Str) : Option Str :=
  if pyTruthyOS deptOver then normDeptId deptOver
  else
    match deptPath with
    | p :: _ => normDeptId (some p)
    | [] => none

/-- Model of the _department_id closure. -/
def departmentIdF (isEnq : Bool) (deptRoot : Option Str)
    (deptPath : List Str) : Option Str :=
  if isEnq then normDeptId deptRoot
  else deptIdFromPath deptPath

/-- Model of the _post_title_long_from_short closure; the abbreviation
expander (regex over an external JSON dictionary) is an oracle. -/
def postTitleLongF (expander : Option Str → Option Str) (pts : Option Str) :
    Option Str :=
  let long := expander pts
  if pyTruthyOS pts ∧ (long = none ∨ long = pts) then pts else long

/-- Record metadata dict of the directory crawler: the fixed keys written
by _make_meta, plus the two list keys added on repeat sightings (none =
key absent). -/
structure TMeta where
  departmentRoot : Option Str
  postTitle : Option Str
  postTitleLong : Option Str
  officeTel : Option Str
  email : Option Str
  discoveredFrom : Str
  dedupKey : Str
  departmentPaths : List (List Str)
  discoveredFromUrls : Option (List Str)
  otherPersonUrls : Option (List Str)
  deriving Repr, DecidableEq

/-- Model of _make_meta together with _set_department_path. -/
def makeMeta (discoveredFrom dedupKey : Str) (deptRoot : Option Str)
    (deptPath : List Str) (pts ptl ot em : Option Str) : TMeta :=
  ⟨deptRoot, pts, ptl, ot, em, discoveredFrom, dedupKey,
   if deptPath ≠ [] then [deptPath] else [], none, none⟩

/-- Emitted record of the directory crawler. -/
structure TelRec where
  url : Str
  name : Option Str
  discoveredAt : Str
  source : Str
  meta : TMeta
  deriving Repr, DecidableEq

/-- Entry persisted per page so that later rediscoveries under a new
breadcrumb can mint additional records (entries_on_page). -/
structure TEntry where
  phoneKey : Str
  url : Str
  name : Option Str
  isEnquiryLike : Bool
  departmentRoot : Option Str
  postTitle : Option Str
  postTitleLong : Option Str
  officeTel : Option Str
  email : Option Str
  deriving Repr, DecidableEq

/-- Queue item of the directory crawl. -/
structure TelQItem where
  url : Str
  deptPath : List Str
  deriving Repr, DecidableEq

/-- Parser outputs for one fetched page of the directory crawl. -/
structure TelPage where
  officeTree : List (Str × List Str)
  rows : List TRow
  links : List HLink
  deriving Repr, DecidableEq

/-- Association-list get, modelling dict.get. -/
def aGet {α : Type} (d : List (Str × α)) (k : Str) : Option α :=
  (d.find? (·.1 = k)).map (·.2)

/-- Association-list set, modelling dict assignment. -/
def aSet {α : Type} (d : List (Str × α)) (k : Str) (v : α) : List (Str × α) :=
  if d.any (·.1 = k) then d.map (fun kv => if kv.1 = k then (k, v) else kv)
  else d ++ [(k, v)]

/-- In-place update of the i-th element of a list. -/
def listModify {α : Type} (f : α → α) : Nat → List α → List α
  | _, [] => []
  | 0, x :: xs => f x :: xs
  | n + 1, x :: xs => x :: listModify f n xs

/-- State of the directory crawl.  Python mutates UrlRecord.meta in place
through aliases held by both record_by_key and out; the model keeps the
records in a store and lets byKey and out hold indices into it. -/
structure TelState where
  queue : List TelQItem
  visited : List Str
  pageEntries : List (Str × List TEntry)
  store : List TelRec
  byKey : List (Str × Nat)
  out : List Nat
  fetchLog : List Str
  deriving Repr

/-- Repeat-sighting mutation of an existing record (the else branch of the
people loop): record the page in discovered_from_urls when not already
there, and the differing person URL in other_person_urls. -/
def mergeExisting (pageUrl url : Str) (recv : TelRec) : TelRec :=
  let meta := recv.meta
  let dfs := match meta.discoveredFromUrls with
    | some l => l
    | none => [meta.discoveredFrom]
  let dfs := if pageUrl ∉ dfs then dfs ++ [pageUrl] else dfs
  let meta := { meta with discoveredFromUrls := some dfs }
  if url ≠ [] ∧ recv.url ≠ url then
    let ou := match meta.otherPersonUrls with
      | some l => l
      | none => []
    let ou := if url ∉ ou ∧ url ≠ recv.url then ou ++ [url] else ou
    { recv with meta := { meta with otherPersonUrls := some ou } }
  else { recv with meta := meta }

/-- One entry step of the _ensure_record_for_page_path closure. -/
def ensureStep (discoveredAt pageUrl : Str) (deptPath : List Str)
    (st : TelState) (e : TEntry) : TelState :=
  let phoneKey := pyStrip e.phoneKey
  if phoneKey = [] then st
  else
    let isEnq := e.isEnquiryLike
    let deptRoot := normDeptId e.departmentRoot
    let effPath := effectiveDeptPath deptPath isEnq deptRoot
    let deptId := departmentIdF isEnq deptRoot effPath
    let k := dedupKeyF phoneKey deptId
    if (aGet st.byKey k).isSome then st
    else
      let meta := makeMeta pageUrl k deptRoot effPath e.postTitle
        e.postTitleLong e.officeTel e.email
      let recv : TelRec :=
        ⟨if e.url ≠ [] then e.url else pageUrl, pyOrNone e.name,
         discoveredAt, "tel_directory".data, meta⟩
      let idx := st.store.length
      { st with
        store := st.store ++ [recv]
        byKey := aSet st.byKey k idx
        out := st.out ++ [idx] }

/-- Model of the _ensure_record_for_page_path closure: when an already
visited page is rediscovered under a new breadcrumb, mint records for the
dedup keys that are new under that breadcrumb. -/
def ensureRecords (discoveredAt pageUrl : Str) (deptPath : List Str)
    (st : TelState) : TelState :=
  match aGet st.pageEntries pageUrl with
  | none => st
  | some entries =>
    entries.foldl (ensureStep discoveredAt pageUrl deptPath) st

/-- Record URL of a person row: the stripped person link, defaulting to
the page URL. -/
def telPersonUrl (pageUrl : Str) (p : TPerson) : Str :=
  if pyStrip (p.personUrl.getD []) = [] then pageUrl
  else pyStrip (p.personUrl.getD [])

/-- Dedup key of a person row under a breadcrumb. -/
def telPersonKey (deptPath : List Str) (p : TPerson) : Str :=
  dedupKeyF (pyStrip p.officeTelNorm)
    (departmentIdF p.isEnquiryLike (recordDeptRoot p.departmentOverride deptPath)
      (effectiveDeptPath deptPath p.isEnquiryLike
        (recordDeptRoot p.departmentOverride deptPath)))

/-- Entry persisted for a person row (entries_on_page element). -/
def telPersonEntry (pageUrl : Str) (deptPath : List Str)
    (ex : Option Str → Option Str) (p : TPerson) : TEntry :=
  ⟨pyStrip p.officeTelNorm, telPersonUrl pageUrl p,
   if p.name ≠ [] then some p.name else none, p.isEnquiryLike,
   recordDeptRoot p.departmentOverride deptPath, p.postTitle,
   postTitleLongF ex p.postTitle, p.officeTel, p.email⟩

/-- Record minted for a person row first seen under its dedup key. -/
def telPersonRec (discoveredAt pageUrl : Str) (deptPath : List Str)
    (ex : Option Str → Option Str) (p : TPerson) : TelRec :=
  ⟨telPersonUrl pageUrl p, if p.name ≠ [] then some p.name else none,
   discoveredAt, "tel_directory".data,
   makeMeta pageUrl (telPersonKey deptPath p)
     (recordDeptRoot p.departmentOverride deptPath)
     (effectiveDeptPath deptPath p.isEnquiryLike
       (recordDeptRoot p.departmentOverride deptPath))
     p.postTitle (postTitleLongF ex p.postTitle) p.officeTel p.email⟩

/-- People loop of the crawl body: build the page's entry list, create a
record for an unseen dedup key or merge into the existing one, and stop at
the record cap.  Returns the new state and the entries accumulated so
far. -/
def processPeople (maxRecords : Nat) (discoveredAt pageUrl : Str)
    (deptPath : List Str) (expander : Option Str → Option Str) :
    List TPerson → TelState → List TEntry → TelState × List TEntry
  | [], st, entries => (st, entries)
  | p :: rest, st, entries =>
    if pyStrip p.officeTelNorm = [] then
      processPeople maxRecords discoveredAt pageUrl deptPath expander rest st
        entries
    else
      match aGet st.byKey (telPersonKey deptPath p) with
      | none =>
        if (st.out ++ [st.store.length]).length ≥ maxRecords then
          ({ st with
             store := (st.store ++
               [telPersonRec discoveredAt pageUrl deptPath expander p])
             byKey := aSet st.byKey (telPersonKey deptPath p) st.store.length
             out := st.out ++ [st.store.length] },
           entries ++ [telPersonEntry pageUrl deptPath expander p])
        else
          processPeople maxRecords discoveredAt pageUrl deptPath expander rest
            { st with
              store := (st.store ++
                [telPersonRec discoveredAt pageUrl deptPath expander p])
              byKey := aSet st.byKey (telPersonKey deptPath p) st.store.length
              out := st.out ++ [st.store.length] }
            (entries ++ [telPersonEntry pageUrl deptPath expander p])
      | some idx =>
        if st.out.length ≥ maxRecords then
          ({ st with store := (listModify
              (mergeExisting pageUrl (telPersonUrl pageUrl p)) idx st.store) },
           entries ++ [telPersonEntry pageUrl deptPath expander p])
        else
          processPeople maxRecords discoveredAt pageUrl deptPath expander rest
            { st with store := (listModify
                (mergeExisting pageUrl (telPersonUrl pageUrl p)) idx st.store) }
            (entries ++ [telPersonEntry pageUrl deptPath expander p])

/-- Link loop of the crawl body: follow crawlable tel-directory pages,
building the child breadcrumb from the office tree or the cleaned link
text; rediscovered visited pages get _ensure_record_for_page_path instead
of a refetch. -/
def processTelLinks (discoveredAt : Str) (deptPath : List Str)
    (officeTree : List (Str × List Str)) :
    List HLink → TelState → TelState
  | [], st => st
  | link :: rest, st =>
    let href := pyStrip link.href
    if href = [] then processTelLinks discoveredAt deptPath officeTree rest st
    else if ¬ isCrawlableTelPage href then
      processTelLinks discoveredAt deptPath officeTree rest st
    else
      match telCanonicalize href with
      | none => processTelLinks discoveredAt deptPath officeTree rest st
      | some can =>
        let nextPath :=
          match aGet officeTree can with
          | some tp => tp
          | none =>
            match cleanDeptSegment link.text with
            | none => deptPath
            | some seg =>
              match deptPath.getLast? with
              | some last =>
                if lowerStr (pyStrip last) = lowerStr (pyStrip seg) then deptPath
                else deptPath ++ [seg]
              | none => deptPath ++ [seg]
        if can ∈ st.visited then
          processTelLinks discoveredAt deptPath officeTree rest
            (ensureRecords discoveredAt can nextPath st)
        else
          processTelLinks discoveredAt deptPath officeTree rest
            { st with queue := st.queue ++ [⟨can, nextPath⟩] }

/-- State after popping an item, marking it visited and fetching it. -/
def telFetchState (st : TelState) (item : TelQItem) (rest : List TelQItem) :
    TelState :=
  { st with
    queue := rest
    visited := item.url :: st.visited
    fetchLog := st.fetchLog ++ [item.url] }

/-- Breadcrumb of the fetched page: the office-tree entry when present,
else the queue item's breadcrumb. -/
def telDeptPath (page : TelPage) (item : TelQItem) : List Str :=
  match aGet page.officeTree item.url with
  | some tp => tp
  | none => item.deptPath

/-- The people loop run on a fetched page, from an empty entry list. -/
def telPeopleRun (maxRecords : Nat) (discoveredAt : Str)
    (expander : Option Str → Option Str) (item : TelQItem) (page : TelPage)
    (st : TelState) : TelState × List TEntry :=
  processPeople maxRecords discoveredAt item.url (telDeptPath page item)
    expander (extractPeopleFromRows page.rows) st []

/-- State after the full page body below the record cap: the people loop,
the entries_on_page assignment, and the link loop. -/
def telAfterPage (maxRecords : Nat) (discoveredAt : Str)
    (expander : Option Str → Option Str) (item : TelQItem) (page : TelPage)
    (st : TelState) : TelState :=
  processTelLinks discoveredAt (telDeptPath page item) page.officeTree
    page.links
    { (telPeopleRun maxRecords discoveredAt expander item page st).1 with
      pageEntries := aSet
        (telPeopleRun maxRecords discoveredAt expander item page st).1.pageEntries
        item.url
        (telPeopleRun maxRecords discoveredAt expander item page st).2 }

/-- The while loop of directory/tel_directory.Crawler.crawl,
fuel-indexed; none models a crawl aborted by a fetch error. -/
def telLoop (world : Str → Option TelPage) (maxPages maxRecords : Nat)
    (expander : Option Str → Option Str) (discoveredAt : Str) :
    Nat → TelState → Option TelState
  | 0, st => some st
  | fuel + 1, st =>
    match st.queue with
    | [] => some st
    | item :: rest =>
      if item.url ∈ st.visited then
        telLoop world maxPages maxRecords expander discoveredAt fuel
          { st with queue := rest }
      else if st.visited.length ≥ maxPages then some { st with queue := rest }
      else
        match world item.url with
        | none => none
        | some page =>
          if (telPeopleRun maxRecords discoveredAt expander item page
              (telFetchState st item rest)).1.out.length ≥ maxRecords then
            some (telPeopleRun maxRecords discoveredAt expander item page
              (telFetchState st item rest)).1
          else
            telLoop world maxPages maxRecords expander discoveredAt fuel
              (telAfterPage maxRecords discoveredAt expander item page
                (telFetchState st item rest))

/-- Initial state of the directory crawl. -/
def telInit (start : Str) : TelState :=
  ⟨[⟨start, []⟩], [], [], [], [], [], []⟩

/-- Dereference the output indices in the store. -/
def telOutRecs (st : TelState) : List TelRec :=
  st.out.filterMap fun i => st.store.get? i

/-- Model of directory/tel_directory.Crawler.crawl: run the loop from the
canonicalized index URL and sort the records by (dedup key, url). -/
def telCrawlRecords (world : Str → Option TelPage) (indexUrl : Str)
    (maxPages maxRecords : Nat) (expander : Option Str → Option Str)
    (discoveredAt : Str) (fuel : Nat) : Option (List TelRec) :=
  match telCanonicalize indexUrl with
  | none => some []
  | some start =>
    (telLoop world maxPages maxRecords expander discoveredAt fuel (telInit start)).map
      fun st =>
        List.insertionSort
          (fun a b => pyPairLe (a.meta.dedupKey, a.url) (b.meta.dedupKey, b.url) = true)
          (telOutRecs st)

/-- Model of tel_directory._merge_department_path of the legacy flat
variant, acting on the department_paths value of a record's meta (none =
key absent or not a list): append a nonempty breadcrumb not yet present,
preserving insertion order. -/
def mergeDepartmentPath (paths : Option (List (List Str))) (path : List Str) :
    Option (List (List Str)) :=
  if path = [] then paths
  else
    match paths with
    | none => some [path]
    | some ps => if path ∈ ps then some ps else some (ps ++ [path])

/-- Store-shape invariant of the directory crawl: the output list holds
exactly the store's indices in creation order, and each stored record's
dedup key maps back to that record's own index, so no two stored records
share a dedup key. -/
def TelStoreInv (st : TelState) : Prop :=
  st.out = List.range st.store.length ∧
  (∀ i r, st.store.get? i = some r → aGet st.byKey r.meta.dedupKey = some i)

/-- Inductive invariant of the directory crawl loop: the visited set is
the reversed fetch log without duplicates, and the store is well shaped. -/
def TelInv (st : TelState) : Prop :=
  st.visited = st.fetchLog.reverse ∧
  st.visited.Nodup ∧
  TelStoreInv st

/-! ## Concrete scenario worlds

Small concrete runs used to witness the crawl theorems and to refute the
claims that fail.  They exercise the models exactly as the Python crawlers
would run against sites serving the corresponding pages. -/

/-- Telephone-directory URL helper. -/
def telUrl (p : String) : Str := ("https://tel.directory.gov.hk/" ++ p).data

/-- Table row of a generic "Enquiry" contact with the given telephone. -/
def enqRow (tel : String) : TRow :=
  ⟨"people".data,
   [⟨"Enquiry".data, none⟩, ⟨"-".data, none⟩, ⟨tel.data, none⟩],
   some "Enquiry".data, some (telUrl "enq_eng.html"), some tel.data, none⟩

/-- Table row of an ordinary person contact. -/
def personRow (name href tel : String) : TRow :=
  ⟨"people".data,
   [⟨name.data, none⟩, ⟨"Manager".data, none⟩, ⟨tel.data, none⟩],
   some name.data, some href.data, some tel.data, none⟩

/-- Directory world of the dedup-merge scenario: the index links to
Bureau A, whose page links to Division 1 and Division 2; both division
pages list the same generic Enquiry contact with phone 2345 6789. -/
def telMergeWorld (u : Str) : Option TelPage :=
  if u = telUrl "index_eng.html" then
    some ⟨[], [], [⟨telUrl "bureau_eng.html", "Bureau A".data⟩]⟩
  else if u = telUrl "bureau_eng.html" then
    some ⟨[], [], [⟨telUrl "div1_eng.html", "Division 1".data⟩,
                   ⟨telUrl "div2_eng.html", "Division 2".data⟩]⟩
  else if u = telUrl "div1_eng.html" then some ⟨[], [enqRow "2345 6789"], []⟩
  else if u = telUrl "div2_eng.html" then some ⟨[], [enqRow "2345 6789"], []⟩
  else none

/-- The records of the dedup-merge scenario. -/
def telMergeOut : Option (List TelRec) :=
  telCrawlRecords telMergeWorld (telUrl "index_eng.html") 100 1000
    (fun _ => none) "T".data 10

/-- Directory world of the sort-order scenario: one page listing two
contacts whose dedup keys order opposite to their URLs. -/
def telSortWorld (u : Str) : Option TelPage :=
  if u = telUrl "index_eng.html" then
    some ⟨[], [personRow "Zed" "http://e/z" "2111 1111",
               personRow "Ann" "http://e/a" "3111 1111"], []⟩
  else none

/-- The records of the sort-order scenario. -/
def telSortOut : Option (List TelRec) :=
  telCrawlRecords telSortWorld (telUrl "index_eng.html") 100 1000
    (fun _ => none) "T".data 10

/-- Directory world of the trailing-slash scenario: one contact whose
detail link ends in a slash. -/
def telSlashWorld (u : Str) : Option TelPage :=
  if u = telUrl "index_eng.html" then
    some ⟨[], [personRow "Pat" "http://e/p/" "2111 1111"], []⟩
  else none

/-- The records of the trailing-slash scenario. -/
def telSlashOut : Option (List TelRec) :=
  telCrawlRecords telSlashWorld (telUrl "index_eng.html") 100 1000
    (fun _ => none) "T".data 10

/-- devb_publications URL helper (inside the crawl scope). -/
def devbUrl (p : String) : Str :=
  ("https://www.devb.gov.hk/en/publications_and_press_releases/publications/" ++ p).data

/-- Demo configuration of the devb crawl: depth limit 1 under the
publications scope. -/
def devbDemoCfg : DevbCfg :=
  ⟨"www.devb.gov.hk".data, devbUrl "index.html",
   "/en/publications_and_press_releases/publications/".data, [],
   1, 200, 500, 50000, "T".data⟩

/-- devb world: the seed links one document and a subpage; the subpage
(at the depth limit) links another document and a deeper page that must
not be fetched; an out-of-scope page is never fetched. -/
def devbDemoWorld (u : Str) : Option DevbPage :=
  if u = devbUrl "index.html" then
    some ⟨([], []), ([], []),
      [⟨devbUrl "doc1.pdf", "Doc One".data⟩,
       ⟨devbUrl "sub/index.html", "Sub".data⟩,
       ⟨"https://www.devb.gov.hk/en/other/page.html".data, "Other".data⟩]⟩
  else if u = devbUrl "sub/index.html" then
    some ⟨([], []), ([], []),
      [⟨devbUrl "doc2.pdf", "Doc Two".data⟩,
       ⟨devbUrl "sub/deeper.html", "Deeper".data⟩]⟩
  else if u = devbUrl "sub/deeper.html" then
    some ⟨([], []), ([], []), [⟨devbUrl "doc3.pdf", "Doc Three".data⟩]⟩
  else none

/-! ## Lemmas and theorems -/

lemma pyToLower_cases (c : Char) :
    pyToLower c = c ∨ pyToLower c ∈
      ['a', 'b', 'c', 'd', 'e', 'f', 'g', 'h', 'i', 'j', 'k', 'l', 'm',
       'n', 'o', 'p', 'q', 'r', 's', 't', 'u', 'v', 'w', 'x', 'y', 'z'] := by
  unfold pyToLower
  split
  all_goals first
    | exact Or.inl rfl
    | exact Or.inr (by decide)

lemma pyToLower_of_lc :
    ∀ c ∈ ['a', 'b', 'c', 'd', 'e', 'f', 'g', 'h', 'i', 'j', 'k', 'l', 'm',
           'n', 'o', 'p', 'q', 'r', 's', 't', 'u', 'v', 'w', 'x', 'y', 'z'],
      pyToLower c = c := by decide

lemma pyToLower_idem (c : Char) : pyToLower (pyToLower c) = pyToLower c := by
  rcases pyToLower_cases c with h | h
  · rw [h]; exact h
  · exact pyToLower_of_lc _ h

lemma lowerStr_idem (s : Str) : lowerStr (lowerStr s) = lowerStr s := by
  induction s with
  | nil => rfl
  | cons a as ih =>
    simp only [lowerStr, List.map_cons] at *
    rw [pyToLower_idem]
    exact congrArg _ (by simpa [lowerStr] using ih)

lemma head?_dropWhile_not {α : Type} (p : α → Bool) (l : List α) (x : α)
    (h : (l.dropWhile p).head? = some x) : p x = false := by
  induction l with
  | nil => simp at h
  | cons a as ih =>
    rw [List.dropWhile_cons] at h
    split at h
    · exact ih h
    · rename_i hp
      simp only [List.head?_cons, Option.some.injEq] at h
      subst h
      simpa using hp

lemma endsWithChar_rstripSlash (p : Str) : endsWithChar '/' (rstripSlash p) = false := by
  simp only [endsWithChar, rstripSlash, decide_eq_false_iff_not]
  rw [List.getLast?_reverse]
  intro h
  have := head?_dropWhile_not (· = '/') p.reverse '/' h
  simp at this

lemma encodeSpacesF_id (s : Str) (h : ' ' ∉ s) : encodeSpacesF s = s := by
  induction s with
  | nil => rfl
  | cons a as ih =>
    simp only [List.mem_cons, not_or] at h
    unfold encodeSpacesF at ih ⊢
    simp only [List.flatMap_cons]
    rw [if_neg (fun hc : a = ' ' => h.1 hc.symm)]
    rw [ih h.2]
    rfl

lemma canonNormPath_id (trim : Bool) (p : Str) (h0 : p ≠ [])
    (h1 : trim = true → p = ['/'] ∨ endsWithChar '/' p = false) :
    canonNormPath trim p = p := by
  unfold canonNormPath
  simp only [if_neg h0]
  cases trim
  · simp
  · rcases h1 rfl with h | h
    · subst h; simp
    · simp [h]

lemma urlsplitM_some (s : Str) (sp : UrlSplit) (h : urlsplitM s = some sp) :
    ∃ nr, splitNetloc (splitScheme (removeUnsafe s)).2 = some nr ∧
      sp = ⟨(splitScheme (removeUnsafe s)).1, nr.1,
            (splitQuery (splitFrag nr.2).1).1, (splitQuery (splitFrag nr.2).1).2,
            (splitFrag nr.2).2⟩ := by
  unfold urlsplitM at h
  cases hnr : splitNetloc (splitScheme (removeUnsafe s)).2 with
  | none => rw [hnr] at h; exact absurd h (by simp)
  | some nr =>
    rw [hnr] at h
    refine ⟨nr, rfl, ?_⟩
    simp only [Option.some.injEq] at h
    exact h.symm

lemma splitScheme_fst_lower (s : Str) :
    lowerStr (splitScheme s).1 = (splitScheme s).1 := by
  unfold splitScheme
  cases hb : breakAtChar ':' s with
  | mk a b =>
    cases b with
    | none => simp [lowerStr]
    | some rest =>
      dsimp only
      split
      · exact lowerStr_idem a
      · simp [lowerStr]

lemma urlsplitM_scheme_lower (s : Str) (sp : UrlSplit) (h : urlsplitM s = some sp) :
    lowerStr sp.scheme = sp.scheme := by
  obtain ⟨nr, _, rfl⟩ := urlsplitM_some s sp h
  exact splitScheme_fst_lower _

lemma urlparseM_some (s : Str) (pp : UrlParts) (h : urlparseM s = some pp) :
    ∃ sp : UrlSplit, urlsplitM s = some sp ∧
      pp = ⟨sp.scheme, sp.netloc,
            (if ';' ∈ sp.path then splitParamsF sp.path else (sp.path, [])).1,
            (if ';' ∈ sp.path then splitParamsF sp.path else (sp.path, [])).2,
            sp.query, sp.fragment⟩ := by
  unfold urlparseM at h
  cases hsp : urlsplitM s with
  | none => rw [hsp] at h; exact absurd h (by simp)
  | some sp =>
    rw [hsp] at h
    simp only [Option.some.injEq] at h
    exact ⟨sp, rfl, h.symm⟩

lemma urlparseM_scheme_lower (s : Str) (pp : UrlParts) (h : urlparseM s = some pp) :
    lowerStr pp.scheme = pp.scheme := by
  obtain ⟨sp, hsp, rfl⟩ := urlparseM_some s pp h
  exact urlsplitM_scheme_lower s sp hsp

/-- C7 counterexample: the specified path normalization claims that
exactly one trailing slash is removed, so that "http://h/a//" would
canonicalize with path "/a/"; the code's path.rstrip("/") removes all
trailing slashes, giving path "/a". -/
theorem C7_counterexample :
    canonicalizeUrl {} "http://h/a//".data = some "http://h/a".data ∧
    canonicalizeUrl {} "http://h/a//".data ≠ some "http://h/a/".data := by
  decide

/-- C7 amended: in URL canonicalization an empty path becomes "/", and a
non-root path ending in '/' has all of its trailing slashes removed (so
"/a//" canonicalizes to "/a"); consequently a normalized path never ends
in '/' unless it is the root. -/
theorem C7_amended :
    canonicalizeUrl {} "http://h".data = some "http://h/".data ∧
    canonicalizeUrl {} "http://h/a//".data = some "http://h/a".data ∧
    ∀ p : Str, canonNormPath true p = ['/'] ∨
      endsWithChar '/' (canonNormPath true p) = false := by
  refine ⟨by decide, by decide, ?_⟩
  intro p
  by_cases h0 : p = []
  · subst h0; left; rfl
  · unfold canonNormPath
    simp only [if_neg h0]
    by_cases h1 : p = ['/']
    · subst h1; left; simp
    · by_cases h2 : endsWithChar '/' p = true
      · rw [if_pos ⟨trivial, h1, h2⟩]
        right
        exact endsWithChar_rstripSlash p
      · rw [if_neg (fun hc => h2 hc.2.2)]
        right
        simpa using h2

/-- C4 amended: canonicalization is idempotent on every input whose
canonical output is itself fully canonical — already whitespace-trimmed,
not matching a rejected scheme, re-parsing with a nonempty scheme and
host, an already-lowercase host (when lowercasing is on), an empty
fragment (when stripping is on), a nonempty path that is the root or has
no trailing slash (when trimming is on), space-free (when space encoding
is on), and reassembling to the same string.  The unconditional claim is
false (see the counterexample): an all-slash path trimmed to the empty
path, a params/trailing-slash interaction, trailing whitespace in a
query, or a rejected scheme hidden by tab characters each break it. -/
theorem C4_amended (u O : Str) (opts : CanonOpts) (pp : UrlParts)
    (h : canonicalizeUrl opts u = some O)
    (h1 : pyStrip O = O)
    (h2 : rejectHit opts.rejectSchemes O = false)
    (h3 : urlparseM O = some pp)
    (h4 : urlunparseF pp = O)
    (h5 : pp.scheme ≠ [])
    (h6 : pp.netloc ≠ [])
    (h7 : opts.lowercaseSchemeHost = true → lowerStr pp.netloc = pp.netloc)
    (h8 : ∀ ah, opts.allowedHost = some ah → pp.netloc = lowerStr ah)
    (h9 : opts.stripFragment = true → pp.fragment = [])
    (h10 : pp.path ≠ [])
    (h11 : opts.trimTrailingSlash = true →
      pp.path = ['/'] ∨ endsWithChar '/' pp.path = false)
    (h12 : opts.encodeSpaces = true → ' ' ∉ O) :
    canonicalizeUrl opts O = some O ∧
    (canonicalizeUrl opts u).bind (canonicalizeUrl opts) = canonicalizeUrl opts u := by
  have hO : O ≠ [] := by
    intro h0
    subst h0
    rw [show urlparseM ([] : Str) = some ⟨[], [], [], [], [], []⟩ from rfl] at h3
    injection h3 with h3
    exact h5 (congrArg UrlParts.scheme h3.symm)
  have henc : (if opts.encodeSpaces then encodeSpacesF O else O) = O := by
    cases he : opts.encodeSpaces
    · rfl
    · exact encodeSpacesF_id O (h12 he)
  have hnet : (if opts.lowercaseSchemeHost then lowerStr pp.netloc else pp.netloc)
      = pp.netloc := by
    cases hl : opts.lowercaseSchemeHost
    · rfl
    · exact h7 hl
  have hsch : (if opts.lowercaseSchemeHost then lowerStr pp.scheme else pp.scheme)
      = pp.scheme := by
    cases hl : opts.lowercaseSchemeHost
    · rfl
    · exact urlparseM_scheme_lower O pp h3
  have hfr : (if opts.stripFragment then ([] : Str) else pp.fragment)
      = pp.fragment := by
    cases hs : opts.stripFragment
    · rfl
    · exact (h9 hs).symm
  have hpath : canonNormPath opts.trimTrailingSlash pp.path = pp.path :=
    canonNormPath_id _ _ h10 h11
  have main : canonicalizeUrl opts O = some O := by
    unfold canonicalizeUrl
    rw [h1, if_neg hO, henc, h2]
    simp only [Bool.false_eq_true, if_false, h3]
    rw [if_neg (by simp [h5, h6])]
    have hhost : (match opts.allowedHost with
        | some ah =>
          decide ((if opts.lowercaseSchemeHost then lowerStr pp.netloc
                   else pp.netloc) ≠ lowerStr ah)
        | none => false) = false := by
      cases hah : opts.allowedHost with
      | none => rfl
      | some ah =>
        rw [hnet, h8 ah hah]
        exact decide_eq_false (by simp)
    rw [hhost]
    simp only [Bool.false_eq_true, if_false]
    rw [hsch, hnet, hpath, hfr]
    rw [show (⟨pp.scheme, pp.netloc, pp.path, pp.params, pp.query, pp.fragment⟩
          : UrlParts) = pp from rfl, h4]
  refine ⟨main, ?_⟩
  rw [h]
  exact main

/-- Witness for C4_amended: a concrete URL whose canonical output
satisfies all the sanity conditions and is a fixpoint. -/
theorem C4_amended_witness :
    canonicalizeUrl {} "HTTP://Example.COM/a/b/#frag".data
      = some "http://example.com/a/b".data ∧
    canonicalizeUrl {} "http://example.com/a/b".data
      = some "http://example.com/a/b".data := by
  refine ⟨by decide, ?_⟩
  exact (C4_amended "HTTP://Example.COM/a/b/#frag".data
    "http://example.com/a/b".data {}
    ⟨"http".data, "example.com".data, "/a/b".data, [], [], []⟩
    (by decide) (by decide) (by decide) (by decide) (by decide) (by decide)
    (by decide) (by decide) (fun ah hah => Option.noConfusion hah)
    (by decide) (by decide) (by decide) (by decide)).1

lemma filter_isGetEvent_retrySleeps (r : TResp) (attempt : Nat)
    (base jitter : ℚ) (draw : Nat → ℚ) :
    (retrySleeps r attempt base jitter draw).filter isGetEvent = [] := by
  unfold retrySleeps
  rcases r.retryAfter with _ | ra
  · simp [isGetEvent]
  · rcases ra with _ | q <;> simp [isGetEvent]

lemma getWithRetriesAux_success (transport : Nat → TResult) (maxRetries : Nat)
    (base jitter : ℚ) (draw : Nat → ℚ) (fuel attempt : Nat) (r : TResp)
    (h : (getWithRetriesAux transport maxRetries base jitter draw fuel attempt).1
          = .success r) :
    r.status ∉ retryStatuses ∧ raisesForStatus r.status = false := by
  induction fuel generalizing attempt with
  | zero => simp [getWithRetriesAux] at h
  | succ fuel ih =>
    rw [getWithRetriesAux] at h
    split at h
    · split at h
      · exact absurd h (by simp)
      · simp only at h
        exact ih _ h
    · rename_i resp
      split at h
      · split at h
        · exact absurd h (by simp)
        · simp only at h
          exact ih _ h
      · split at h
        · split at h
          · exact absurd h (by simp)
          · simp only at h
            exact ih _ h
        · rename_i hretry hraise
          simp only [FetchOutcome.success.injEq] at h
          subst h
          exact ⟨hretry, by simpa using hraise⟩

lemma getWithRetriesAux_always_retry (s : Nat) (hdr : Option (Option ℚ))
    (maxRetries : Nat) (base jitter : ℚ) (draw : Nat → ℚ)
    (hs : s ∈ retryStatuses) (k : Nat) :
    ∀ attempt, attempt + k = maxRetries →
      getWithRetriesAux (fun _ => .resp ⟨s, hdr⟩) maxRetries base jitter draw
          (k + 1) attempt
        = (.httpError s,
            (List.range' attempt k).flatMap
              (fun i => FetchEvent.get i :: retrySleeps ⟨s, hdr⟩ i base jitter draw)
            ++ [.get maxRetries]) := by
  induction k with
  | zero =>
    intro attempt hatt
    rw [getWithRetriesAux]
    simp only [hs, if_pos]
    rw [if_pos (by omega)]
    simp at hatt
    simp [hatt]
  | succ k ih =>
    intro attempt hatt
    rw [getWithRetriesAux]
    simp only [hs, if_pos]
    rw [if_neg (by omega)]
    rw [ih (attempt + 1) (by omega)]
    simp [List.range'_succ]

/-- Filtering GET events out of a run of retry rounds leaves exactly one
GET per round. -/
lemma filter_isGetEvent_flatMap (l : List Nat) (r : TResp)
    (base jitter : ℚ) (draw : Nat → ℚ) :
    ((l.flatMap fun k => FetchEvent.get k :: retrySleeps r k base jitter draw).filter
        isGetEvent) = l.map .get := by
  induction l with
  | nil => rfl
  | cons a as ih =>
    simp only [List.flatMap_cons, List.filter_append, List.filter_cons]
    rw [filter_isGetEvent_retrySleeps]
    simp only [isGetEvent, if_pos rfl]
    simp only [List.nil_append, List.map_cons]
    exact congrArg _ ih

/-- C5: the retrying fetcher performs attempts at indices 0..max_retries
inclusive.  Against a transport that answers every attempt with the same
retryable status, it issues exactly max_retries + 1 GET requests — one per
attempt index — sleeping between attempts (the parsed Retry-After value
when the header parses, then the computed backoff), and finally raises the
HTTP status error. -/
theorem C5_retry_exhaustion (s : Nat) (hdr : Option (Option ℚ)) (maxRetries : Nat)
    (base jitter : ℚ) (draw : Nat → ℚ) (hs : s ∈ retryStatuses) :
    (getWithRetries (fun _ => .resp ⟨s, hdr⟩) maxRetries base jitter draw).1
        = .httpError s ∧
    (getWithRetries (fun _ => .resp ⟨s, hdr⟩) maxRetries base jitter draw).2
        = (List.range maxRetries).flatMap
            (fun k => FetchEvent.get k :: retrySleeps ⟨s, hdr⟩ k base jitter draw)
          ++ [.get maxRetries] ∧
    ((getWithRetries (fun _ => .resp ⟨s, hdr⟩) maxRetries base jitter draw).2.filter
        isGetEvent).length = maxRetries + 1 := by
  have hrun := getWithRetriesAux_always_retry s hdr maxRetries base jitter draw hs
    maxRetries 0 (by omega)
  have hget : getWithRetries (fun _ => .resp ⟨s, hdr⟩) maxRetries base jitter draw
      = (.httpError s,
         (List.range maxRetries).flatMap
           (fun i => FetchEvent.get i :: retrySleeps ⟨s, hdr⟩ i base jitter draw)
         ++ [.get maxRetries]) := by
    rw [getWithRetries, hrun, List.range_eq_range']
  refine ⟨by rw [hget], by rw [hget], ?_⟩
  rw [hget]
  simp only [List.filter_append, filter_isGetEvent_flatMap]
  simp [isGetEvent]

/-- Witness for C5_retry_exhaustion: an always-503 transport with
max_retries = 2 issues exactly 3 GETs and raises the HTTP error. -/
theorem C5_retry_exhaustion_witness :
    (getWithRetries (fun _ => .resp ⟨503, none⟩) 2 1 0 (fun _ => 0)).1
        = .httpError 503 ∧
    ((getWithRetries (fun _ => .resp ⟨503, none⟩) 2 1 0 (fun _ => 0)).2.filter
        isGetEvent).length = 3 := by
  have h := C5_retry_exhaustion 503 none 2 1 0 (fun _ => 0) (by decide)
  exact ⟨h.1, h.2.2⟩

/-- C10: whenever get_with_retries returns a response rather than raising,
that response's status is not in the retryable set and is not an HTTP
error status (4xx/5xx): because raise_for_status is called before every
return, the caller never receives a throttling or error response. -/
theorem C10_no_error_response (transport : Nat → TResult) (maxRetries : Nat)
    (base jitter : ℚ) (draw : Nat → ℚ) (r : TResp)
    (h : (getWithRetries transport maxRetries base jitter draw).1 = .success r) :
    r.status ∉ retryStatuses ∧ raisesForStatus r.status = false :=
  getWithRetriesAux_success transport maxRetries base jitter draw _ 0 r h

/-- Witness for C10_no_error_response at a transport that returns 200. -/
theorem C10_no_error_response_witness :
    (getWithRetries (fun _ => .resp ⟨200, none⟩) 3 1 0 (fun _ => 0)).1
        = .success ⟨200, none⟩ ∧
    (200 ∉ retryStatuses ∧ raisesForStatus 200 = false) := by
  refine ⟨by decide, ?_⟩
  exact C10_no_error_response (fun _ => .resp ⟨200, none⟩) 3 1 0 (fun _ => 0)
    ⟨200, none⟩ (by decide)

lemma pyStrLe_total : ∀ a b : Str, pyStrLe a b = true ∨ pyStrLe b a = true := by
  intro a
  induction a with
  | nil => intro b; exact Or.inl rfl
  | cons x xs ih =>
    intro b
    cases b with
    | nil => exact Or.inr rfl
    | cons y ys =>
      simp only [pyStrLe, decide_eq_true_eq]
      rcases lt_trichotomy x y with h | h | h
      · exact Or.inl (Or.inl h)
      · subst h
        rcases ih ys with h | h
        · exact Or.inl (Or.inr ⟨rfl, h⟩)
        · exact Or.inr (Or.inr ⟨rfl, h⟩)
      · exact Or.inr (Or.inl h)

lemma pyStrLe_trans : ∀ a b c : Str,
    pyStrLe a b = true → pyStrLe b c = true → pyStrLe a c = true := by
  intro a
  induction a with
  | nil => intro b c _ _; rfl
  | cons x xs ih =>
    intro b c h1 h2
    cases b with
    | nil => simp [pyStrLe] at h1
    | cons y ys =>
      cases c with
      | nil => simp [pyStrLe] at h2
      | cons z zs =>
        simp only [pyStrLe, decide_eq_true_eq] at h1 h2 ⊢
        rcases h1 with h1 | ⟨rfl, h1⟩
        · rcases h2 with h2 | ⟨rfl, h2⟩
          · exact Or.inl (lt_trans h1 h2)
          · exact Or.inl h1
        · rcases h2 with h2 | ⟨rfl, h2⟩
          · exact Or.inl h2
          · exact Or.inr ⟨rfl, ih ys zs h1 h2⟩

lemma pyStrLt_trans : ∀ a b c : Str,
    pyStrLt a b = true → pyStrLt b c = true → pyStrLt a c = true := by
  intro a
  induction a with
  | nil =>
    intro b c h1 h2
    cases b with
    | nil => simp [pyStrLt] at h1
    | cons y ys =>
      cases c with
      | nil => simp [pyStrLt] at h2
      | cons z zs => rfl
  | cons x xs ih =>
    intro b c h1 h2
    cases b with
    | nil => simp [pyStrLt] at h1
    | cons y ys =>
      cases c with
      | nil => simp [pyStrLt] at h2
      | cons z zs =>
        simp only [pyStrLt, decide_eq_true_eq] at h1 h2 ⊢
        rcases h1 with h1 | ⟨rfl, h1⟩
        · rcases h2 with h2 | ⟨rfl, h2⟩
          · exact Or.inl (lt_trans h1 h2)
          · exact Or.inl h1
        · rcases h2 with h2 | ⟨rfl, h2⟩
          · exact Or.inl h2
          · exact Or.inr ⟨rfl, ih ys zs h1 h2⟩

lemma pyStr_lt_or_eq_or_gt : ∀ a b : Str,
    pyStrLt a b = true ∨ a = b ∨ pyStrLt b a = true := by
  intro a
  induction a with
  | nil =>
    intro b
    cases b with
    | nil => exact Or.inr (Or.inl rfl)
    | cons y ys => exact Or.inl rfl
  | cons x xs ih =>
    intro b
    cases b with
    | nil => exact Or.inr (Or.inr rfl)
    | cons y ys =>
      simp only [pyStrLt, decide_eq_true_eq]
      rcases lt_trichotomy x y with h | h | h
      · exact Or.inl (Or.inl h)
      · subst h
        rcases ih ys with h | h | h
        · exact Or.inl (Or.inr ⟨rfl, h⟩)
        · exact Or.inr (Or.inl (by rw [h]))
        · exact Or.inr (Or.inr (Or.inr ⟨rfl, h⟩))
      · exact Or.inr (Or.inr (Or.inl h))

lemma pyPairLe_total (a b : Str × Str) :
    pyPairLe a b = true ∨ pyPairLe b a = true := by
  unfold pyPairLe
  simp only [decide_eq_true_eq]
  rcases pyStr_lt_or_eq_or_gt a.1 b.1 with h | h | h
  · exact Or.inl (Or.inl h)
  · rcases pyStrLe_total a.2 b.2 with h2 | h2
    · exact Or.inl (Or.inr ⟨h, h2⟩)
    · exact Or.inr (Or.inr ⟨h.symm, h2⟩)
  · exact Or.inr (Or.inl h)

lemma pyPairLe_trans (a b c : Str × Str)
    (h1 : pyPairLe a b = true) (h2 : pyPairLe b c = true) :
    pyPairLe a c = true := by
  unfold pyPairLe at h1 h2 ⊢
  simp only [decide_eq_true_eq] at h1 h2 ⊢
  rcases h1 with h1 | ⟨he1, h1⟩
  · rcases h2 with h2 | ⟨he2, h2⟩
    · exact Or.inl (pyStrLt_trans _ _ _ h1 h2)
    · exact Or.inl (he2 ▸ h1)
  · rcases h2 with h2 | ⟨he2, h2⟩
    · exact Or.inl (he1 ▸ h2)
    · exact Or.inr ⟨he1.trans he2, pyStrLe_trans _ _ _ h1 h2⟩

/-- C8 amended: the devb_publications crawl returns its records sorted by
URL, but the Directory Dedup Model's crawl sorts its output by the pair
(dedup key, url) — sorted by URL only within equal dedup keys, and not
necessarily nondecreasing in the url field overall. -/
theorem C8_amended :
    (∀ world cfg fuel l, devbCrawlRecords world cfg fuel = some l →
      List.Sorted (fun a b : DevbRec => pyStrLe a.url b.url = true) l) ∧
    (∀ world indexUrl maxPages maxRecords expander discoveredAt fuel l,
      telCrawlRecords world indexUrl maxPages maxRecords expander discoveredAt fuel
        = some l →
      List.Sorted
        (fun a b : TelRec =>
          pyPairLe (a.meta.dedupKey, a.url) (b.meta.dedupKey, b.url) = true) l) := by
  constructor
  · intro world cfg fuel l h
    unfold devbCrawlRecords at h
    cases hst : devbCrawl world cfg fuel with
    | none => rw [hst] at h; exact absurd h (by simp)
    | some st =>
      rw [hst] at h
      simp only [Option.map_some', Option.some.injEq] at h
      subst h
      haveI : IsTrans DevbRec (fun a b => pyStrLe a.url b.url = true) :=
        ⟨fun a b c => pyStrLe_trans a.url b.url c.url⟩
      haveI : IsTotal DevbRec (fun a b => pyStrLe a.url b.url = true) :=
        ⟨fun a b => pyStrLe_total a.url b.url⟩
      exact List.sorted_insertionSort _ _
  · intro world indexUrl maxPages maxRecords expander discoveredAt fuel l h
    unfold telCrawlRecords at h
    haveI : IsTrans TelRec
        (fun a b : TelRec =>
          pyPairLe (a.meta.dedupKey, a.url) (b.meta.dedupKey, b.url) = true) :=
      ⟨fun a b c => pyPairLe_trans _ _ _⟩
    haveI : IsTotal TelRec
        (fun a b : TelRec =>
          pyPairLe (a.meta.dedupKey, a.url) (b.meta.dedupKey, b.url) = true) :=
      ⟨fun a b => pyPairLe_total _ _⟩
    split at h
    · simp only [Option.some.injEq] at h
      subst h
      exact List.sorted_nil
    · rename_i start hcan
      cases hst : telLoop world maxPages maxRecords expander discoveredAt fuel
          (telInit start) with
      | none => rw [hst] at h; exact absurd h (by simp)
      | some st =>
        rw [hst] at h
        simp only [Option.map_some', Option.some.injEq] at h
        subst h
        exact List.sorted_insertionSort _ _

set_option maxRecDepth 100000 in
/-- Witness for C8_amended: the sortedness facts at the concrete demo
runs. -/
theorem C8_amended_witness :
    List.Sorted (fun a b : DevbRec => pyStrLe a.url b.url = true)
      ((devbCrawlRecords devbDemoWorld devbDemoCfg 10).getD []) ∧
    List.Sorted
      (fun a b : TelRec =>
        pyPairLe (a.meta.dedupKey, a.url) (b.meta.dedupKey, b.url) = true)
      (telMergeOut.getD []) := by
  constructor
  · exact C8_amended.1 devbDemoWorld devbDemoCfg 10 _ rfl
  · exact C8_amended.2 telMergeWorld (telUrl "index_eng.html") 100 1000
      (fun _ => none) "T".data 10 _ rfl

/-- C8 counterexample: the Directory Dedup Model's output is not sorted by
URL: in the sort-order scenario the crawl emits the URLs z before a,
because the record with the smaller dedup key carries the larger URL. -/
theorem C8_counterexample :
    (telSortOut.map fun l => l.map (·.url))
      = some ["http://e/z".data, "http://e/a".data] ∧
    pyStrLe "http://e/z".data "http://e/a".data = false := by
  decide

lemma specialAdds_mem (cfg : DevbCfg) (pre : Str) (item : DQItem)
    (visited skipped : List Str) (pageLinks : List Str) (q : DQItem)
    (hq : q ∈ specialAdds cfg pre item visited skipped pageLinks) :
    q.depth = item.depth + 1 := by
  unfold specialAdds at hq
  obtain ⟨x, -, hx⟩ := List.mem_filterMap.mp hq
  repeat' split at hx
  all_goals injection hx
  all_goals rename_i h
  all_goals subst h
  all_goals rfl

lemma processLinksGeneric_adds_mem (cfg : DevbCfg) (seedCan : Str) (item : DQItem)
    (visited : List Str) :
    ∀ (links : List HLink) (seen : List Str) (out : List DevbRec)
      (adds : List DQItem) (q : DQItem),
      q ∈ (processLinksGeneric cfg seedCan item visited links seen out adds).2.2 →
      q ∈ adds ∨ (q.depth = item.depth + 1 ∧ item.depth < cfg.maxDepth) := by
  intro links
  induction links with
  | nil => intro seen out adds q hq; exact Or.inl hq
  | cons link rest ih =>
    intro seen out adds q hq
    unfold processLinksGeneric at hq
    split at hq
    · exact ih _ _ _ _ hq
    · rename_i can hcan
      split at hq
      · -- document branch
        split at hq
        · exact ih _ _ _ _ hq
        · split at hq
          · exact ih _ _ _ _ hq
          · split at hq
            · exact ih _ _ _ _ hq
            · split at hq
              · exact Or.inl hq
              · exact ih _ _ _ _ hq
      · -- page branch
        split at hq
        · exact ih _ _ _ _ hq
        · rename_i hdepth
          split at hq
          · exact ih _ _ _ _ hq
          · split at hq
            · exact ih _ _ _ _ hq
            · split at hq
              · exact ih _ _ _ _ hq
              · split at hq
                · exact ih _ _ _ _ hq
                · split at hq
                  · rcases ih _ _ _ _ hq with h | h
                    · rcases List.mem_append.mp h with h | h
                      · exact Or.inl h
                      · simp only [List.mem_singleton] at h
                        subst h
                        exact Or.inr ⟨rfl, by omega⟩
                    · exact Or.inr h
                  · exact ih _ _ _ _ hq

lemma processHits_out_mem (cfg : DevbCfg) (seedCan : Str) (item : DQItem)
    (flagKey : Str) :
    ∀ (hits : List DocHit) (seen : List Str) (out : List DevbRec) (r : DevbRec),
      r ∈ (processHits cfg seedCan item flagKey hits seen out).2 →
      r ∈ out ∨ ∃ raw, devbCanonicalize raw = some r.url ∧
        pathExt r.url ∈ allowedDocExts := by
  intro hits
  induction hits with
  | nil => intro seen out r hr; exact Or.inl hr
  | cons hit rest ih =>
    intro seen out r hr
    unfold processHits at hr
    split at hr
    · exact ih _ _ _ hr
    · rename_i can hcan
      split at hr
      · exact ih _ _ _ hr
      · rename_i hext
        split at hr
        · exact ih _ _ _ hr
        · split at hr
          · exact ih _ _ _ hr
          · split at hr
            · exact ih _ _ _ hr
            · have hnew : ∀ x ∈ out ++ [devbHitRec cfg seedCan item flagKey hit can],
                  x ∈ out ∨ ∃ raw, devbCanonicalize raw = some x.url ∧
                    pathExt x.url ∈ allowedDocExts := by
                intro x hx
                rcases List.mem_append.mp hx with hx | hx
                · exact Or.inl hx
                · simp only [List.mem_singleton] at hx
                  subst hx
                  exact Or.inr ⟨hit.url, hcan, by simpa using hext⟩
              split at hr
              · exact hnew r hr
              · rcases ih _ _ _ hr with h | h
                · exact hnew r h
                · exact Or.inr h

lemma processLinksGeneric_out_mem (cfg : DevbCfg) (seedCan : Str) (item : DQItem)
    (visited : List Str) :
    ∀ (links : List HLink) (seen : List Str) (out : List DevbRec)
      (adds : List DQItem) (r : DevbRec),
      r ∈ (processLinksGeneric cfg seedCan item visited links seen out adds).2.1 →
      r ∈ out ∨ ∃ raw, devbCanonicalize raw = some r.url ∧
        pathExt r.url ∈ allowedDocExts := by
  intro links
  induction links with
  | nil => intro seen out adds r hr; exact Or.inl hr
  | cons link rest ih =>
    intro seen out adds r hr
    unfold processLinksGeneric at hr
    split at hr
    · exact ih _ _ _ _ hr
    · rename_i can hcan
      split at hr
      · rename_i hext
        split at hr
        · exact ih _ _ _ _ hr
        · split at hr
          · exact ih _ _ _ _ hr
          · split at hr
            · exact ih _ _ _ _ hr
            · have hnew : ∀ x ∈ out ++ [devbLinkRec cfg seedCan item link can],
                  x ∈ out ∨ ∃ raw, devbCanonicalize raw = some x.url ∧
                    pathExt x.url ∈ allowedDocExts := by
                intro x hx
                rcases List.mem_append.mp hx with hx | hx
                · exact Or.inl hx
                · simp only [List.mem_singleton] at hx
                  subst hx
                  exact Or.inr ⟨link.href, hcan, hext⟩
              split at hr
              · exact hnew r hr
              · rcases ih _ _ _ _ hr with h | h
                · exact hnew r h
                · exact Or.inr h
      · split at hr
        · exact ih _ _ _ _ hr
        · split at hr
          · exact ih _ _ _ _ hr
          · split at hr
            · exact ih _ _ _ _ hr
            · split at hr
              · exact ih _ _ _ _ hr
              · split at hr
                · exact ih _ _ _ _ hr
                · split at hr
                  · exact ih _ _ _ _ hr
                  · exact ih _ _ _ _ hr

/-- The devb crawl loop preserves its inductive invariant. -/
lemma devbLoop_inv (world : Str → Option DevbPage) (cfg : DevbCfg) (seedCan : Str) :
    ∀ (fuel : Nat) (st st' : DevbState), DevbInv cfg st →
      devbLoop world cfg seedCan fuel st = some st' → DevbInv cfg st' := by
  intro fuel
  induction fuel with
  | zero =>
    intro st st' hinv h
    unfold devbLoop at h
    injection h with h
    exact h ▸ hinv
  | succ fuel ih =>
    intro st st' hinv h
    obtain ⟨hq, hsync, hnd, hskip, hfetch, hout⟩ := hinv
    unfold devbLoop at h
    cases hqe : st.queue with
    | nil =>
      rw [hqe] at h
      injection h with h
      exact h ▸ ⟨hq, hsync, hnd, hskip, hfetch, hout⟩
    | cons item rest =>
      rw [hqe] at h
      dsimp only at h
      have hitem : item.depth ≤ cfg.maxDepth := hq item (hqe ▸ List.mem_cons_self _ _)
      have hrest : ∀ q ∈ rest, q.depth ≤ cfg.maxDepth := fun q hq' =>
        hq q (hqe ▸ List.mem_cons_of_mem _ hq')
      have hpop : DevbInv cfg { st with queue := rest } :=
        ⟨hrest, hsync, hnd, hskip, hfetch, hout⟩
      by_cases hvis : item.url ∈ st.visited
      · rw [if_pos hvis] at h
        exact ih _ _ hpop h
      · rw [if_neg hvis] at h
        by_cases hskp : item.url ∈ st.skipped
        · rw [if_pos hskp] at h
          exact ih _ _ hpop h
        · rw [if_neg hskp] at h
          by_cases hcap : st.visited.length ≥ cfg.maxPages
          · rw [if_pos hcap] at h
            injection h with h
            exact h ▸ hpop
          · rw [if_neg hcap] at h
            cases hp : urlparseM item.url with
            | none =>
              rw [hp] at h
              dsimp only at h
              exact Option.noConfusion h
            | some p =>
              rw [hp] at h
              dsimp only at h
              by_cases hnet : lowerStr p.netloc ≠ cfg.baseNetloc
              · rw [if_pos hnet] at h
                exact ih _ _ hpop h
              · rw [if_neg hnet] at h
                by_cases hexc : pathIsExcluded p.path cfg.excl = true
                · rw [if_pos hexc] at h
                  refine ih _ _ ?_ h
                  refine ⟨hrest, hsync, hnd, ?_, hfetch, hout⟩
                  intro u hu
                  rcases List.mem_cons.mp hu with rfl | hu
                  · exact hvis
                  · exact hskip u hu
                · rw [if_neg hexc] at h
                  by_cases hscope : ¬ cfg.scopePref.isPrefixOf p.path = true
                  · rw [if_pos hscope] at h
                    exact ih _ _ hpop h
                  · rw [if_neg hscope] at h
                    cases hw : world item.url with
                    | none =>
                      rw [hw] at h
                      dsimp only at h
                      exact Option.noConfusion h
                    | some page =>
                      rw [hw] at h
                      dsimp only at h
                      have hnet' : lowerStr p.netloc = cfg.baseNetloc :=
                        not_not.mp hnet
                      have hscope' : cfg.scopePref.isPrefixOf p.path = true :=
                        not_not.mp hscope
                      have hexc' : pathIsExcluded p.path cfg.excl = false := by
                        simpa using hexc
                      have hsyncF : item.url :: st.visited =
                          ((st.fetchLog ++ [(item.url, item.depth)]).map
                            Prod.fst).reverse := by
                        simp [hsync]
                      have hndF : (item.url :: st.visited).Nodup :=
                        List.nodup_cons.mpr ⟨hvis, hnd⟩
                      have hskipF : ∀ u ∈ st.skipped, u ∉ item.url :: st.visited := by
                        intro u hu
                        simp only [List.mem_cons, not_or]
                        exact ⟨fun he => hskp (he ▸ hu), hskip u hu⟩
                      have hfetchF : ∀ e ∈ st.fetchLog ++ [(item.url, item.depth)],
                          devbFetchFacts cfg e := by
                        intro e he
                        rcases List.mem_append.mp he with he | he
                        · exact hfetch e he
                        · simp only [List.mem_singleton] at he
                          subst he
                          exact ⟨hitem, p, hp, hnet', hscope', hexc'⟩
                      by_cases hcons : consultancyDocsPref.isPrefixOf p.path = true
                      · rw [if_pos hcons] at h
                        have houtC : ∀ r ∈ (processHits cfg seedCan item
                            "standard_consultancy_document".data page.consultancy.1
                            st.seenDocs st.out).2, devbRecFacts r := by
                          intro r hr
                          rcases processHits_out_mem cfg seedCan item _ _ _ _ r hr with
                            hr | hr
                          · exact hout r hr
                          · exact hr
                        have hspec : DevbInv cfg (devbSpecialState cfg seedCan item
                            "standard_consultancy_document".data page.consultancy.1
                            (devbFetchState st item rest)) :=
                          ⟨hrest, hsyncF, hndF, hskipF, hfetchF, houtC⟩
                        by_cases hrec : (devbSpecialState cfg seedCan item
                            "standard_consultancy_document".data page.consultancy.1
                            (devbFetchState st item rest)).out.length ≥ cfg.maxRecords
                        · rw [if_pos hrec] at h
                          injection h with h
                          exact h ▸ hspec
                        · rw [if_neg hrec] at h
                          refine ih _ _ ?_ h
                          obtain ⟨h1, h2, h3, h4, h5, h6⟩ := hspec
                          refine ⟨?_, h2, h3, h4, h5, h6⟩
                          intro q hq'
                          dsimp only [devbEnqueueSpecial] at hq'
                          rcases List.mem_append.mp hq' with hq' | hq'
                          · exact h1 q hq'
                          · split at hq'
                            · rw [specialAdds_mem _ _ _ _ _ _ q hq']
                              rename_i hd
                              omega
                            · simp at hq'
                      · rw [if_neg hcons] at h
                        by_cases hcontr : contractDocsPref.isPrefixOf p.path = true
                        · rw [if_pos hcontr] at h
                          have houtC : ∀ r ∈ (processHits cfg seedCan item
                              "standard_contract_documents".data page.contract.1
                              st.seenDocs st.out).2, devbRecFacts r := by
                            intro r hr
                            rcases processHits_out_mem cfg seedCan item _ _ _ _ r hr with
                              hr | hr
                            · exact hout r hr
                            · exact hr
                          have hspec : DevbInv cfg (devbSpecialState cfg seedCan item
                              "standard_contract_documents".data page.contract.1
                              (devbFetchState st item rest)) :=
                            ⟨hrest, hsyncF, hndF, hskipF, hfetchF, houtC⟩
                          by_cases hrec : (devbSpecialState cfg seedCan item
                              "standard_contract_documents".data page.contract.1
                              (devbFetchState st item rest)).out.length ≥ cfg.maxRecords
                          · rw [if_pos hrec] at h
                            injection h with h
                            exact h ▸ hspec
                          · rw [if_neg hrec] at h
                            refine ih _ _ ?_ h
                            obtain ⟨h1, h2, h3, h4, h5, h6⟩ := hspec
                            refine ⟨?_, h2, h3, h4, h5, h6⟩
                            intro q hq'
                            dsimp only [devbEnqueueSpecial] at hq'
                            rcases List.mem_append.mp hq' with hq' | hq'
                            · exact h1 q hq'
                            · split at hq'
                              · rw [specialAdds_mem _ _ _ _ _ _ q hq']
                                rename_i hd
                                omega
                              · simp at hq'
                        · rw [if_neg hcontr] at h
                          have houtG : ∀ r ∈ (processLinksGeneric cfg seedCan item
                              (item.url :: st.visited)
                              (if cfg.maxLinksPerPage > 0 then
                                page.links.take cfg.maxLinksPerPage else page.links)
                              st.seenDocs st.out []).2.1, devbRecFacts r := by
                            intro r hr
                            rcases processLinksGeneric_out_mem cfg seedCan item _ _ _ _
                              _ r hr with hr | hr
                            · exact hout r hr
                            · exact hr
                          have hqG : ∀ q ∈ rest ++ (processLinksGeneric cfg seedCan
                              item (item.url :: st.visited)
                              (if cfg.maxLinksPerPage > 0 then
                                page.links.take cfg.maxLinksPerPage else page.links)
                              st.seenDocs st.out []).2.2, q.depth ≤ cfg.maxDepth := by
                            intro q hq'
                            rcases List.mem_append.mp hq' with hq' | hq'
                            · exact hrest q hq'
                            · rcases processLinksGeneric_adds_mem cfg seedCan item _ _ _
                                _ _ q hq' with hq' | ⟨hq1, hq2⟩
                              · simp at hq'
                              · omega
                          have hgen : DevbInv cfg (devbGenericState cfg seedCan item
                              page (devbFetchState st item rest)) :=
                            ⟨hqG, hsyncF, hndF, hskipF, hfetchF, houtG⟩
                          by_cases hrec : (devbGenericState cfg seedCan item page
                              (devbFetchState st item rest)).out.length ≥ cfg.maxRecords
                          · rw [if_pos hrec] at h
                            injection h with h
                            exact h ▸ hgen
                          · rw [if_neg hrec] at h
                            exact ih _ _ hgen h

/-- C4 counterexample: canonicalization is not idempotent.  On
"http://h//" it succeeds with "http://h" (the all-slash path is stripped
to the empty path), but canonicalizing that output restores the root
path, yielding the different string "http://h/". -/
theorem C4_counterexample :
    canonicalizeUrl {} "http://h//".data = some "http://h".data ∧
    (canonicalizeUrl {} "http://h//".data).bind (canonicalizeUrl {})
      = some "http://h/".data ∧
    some ("http://h/".data) ≠ some ("http://h".data : Str) := by
  decide

lemma devbCrawl_inv (world : Str → Option DevbPage) (cfg : DevbCfg)
    (fuel : Nat) (st : DevbState) (h : devbCrawl world cfg fuel = some st) :
    DevbInv cfg st := by
  unfold devbCrawl at h
  split at h
  · injection h with h
    refine h ▸ ⟨?_, rfl, ?_, ?_, ?_, ?_⟩ <;> simp
  · refine devbLoop_inv world cfg _ fuel _ st ⟨?_, rfl, ?_, ?_, ?_, ?_⟩ h
    · intro q hq
      simp only [devbInit, List.mem_singleton] at hq
      subst hq
      exact Nat.zero_le _
    all_goals simp [devbInit]

lemma devbLinkRec_depth (cfg : DevbCfg) (d : Nat) (seedCan : Str)
    (item : DQItem) (link : HLink) (can : Str) :
    devbLinkRec { cfg with maxDepth := d } seedCan item link can
      = devbLinkRec cfg seedCan item link can := rfl

lemma processLinksGeneric_depth_irrel (cfg : DevbCfg) (d : Nat) (seedCan : Str)
    (item : DQItem) (visited : List Str) :
    ∀ (links : List HLink) (seen : List Str) (out : List DevbRec)
      (adds adds' : List DQItem),
      (processLinksGeneric { cfg with maxDepth := d } seedCan item visited
        links seen out adds).1
        = (processLinksGeneric cfg seedCan item visited links seen out adds').1 ∧
      (processLinksGeneric { cfg with maxDepth := d } seedCan item visited
        links seen out adds).2.1
        = (processLinksGeneric cfg seedCan item visited links seen out adds').2.1 := by
  intro links
  induction links with
  | nil => intro seen out adds adds'; exact ⟨rfl, rfl⟩
  | cons link rest ih =>
    intro seen out adds adds'
    unfold processLinksGeneric
    cases hcan : devbCanonicalize link.href with
    | none =>
      exact ih seen out adds adds'
    | some can =>
      dsimp only
      by_cases hext : pathExt can ∈ allowedDocExts
      · rw [if_pos hext, if_pos hext]
        cases hlp : urlparseM can with
        | none =>
          exact ih seen out adds adds'
        | some lp =>
          dsimp only
          by_cases hnet : lowerStr lp.netloc ≠ cfg.baseNetloc
          · rw [if_pos hnet, if_pos hnet]
            exact ih seen out adds adds'
          · rw [if_neg hnet, if_neg hnet]
            by_cases hseen : can ∈ seen
            · rw [if_pos hseen, if_pos hseen]
              exact ih seen out adds adds'
            · rw [if_neg hseen, if_neg hseen, devbLinkRec_depth]
              by_cases hcap : (out ++ [devbLinkRec cfg seedCan item link can]).length
                  ≥ cfg.maxRecords
              · rw [if_pos hcap, if_pos hcap]
                exact ⟨rfl, rfl⟩
              · rw [if_neg hcap, if_neg hcap]
                exact ih _ _ adds adds'
      · rw [if_neg hext, if_neg hext]
        by_cases hd1 : item.depth ≥ d
        · rw [if_pos hd1]
          by_cases hd2 : item.depth ≥ cfg.maxDepth
          · rw [if_pos hd2]
            exact ih seen out adds adds'
          · rw [if_neg hd2]
            cases hlp : urlparseM can with
            | none =>
              exact ih seen out adds adds'
            | some lp =>
              dsimp only
              by_cases hnet : lowerStr lp.netloc ≠ cfg.baseNetloc
              · rw [if_pos hnet]
                exact ih seen out adds adds'
              · rw [if_neg hnet]
                by_cases hscope : ¬ cfg.scopePref.isPrefixOf lp.path = true
                · rw [if_pos hscope]
                  exact ih seen out adds adds'
                · rw [if_neg hscope]
                  by_cases hexc : pathIsExcluded lp.path cfg.excl = true
                  · rw [if_pos hexc]
                    exact ih seen out adds adds'
                  · rw [if_neg hexc]
                    by_cases hnv : can ∉ visited
                    · rw [if_pos hnv]
                      exact ih seen out adds _
                    · rw [if_neg hnv]
                      exact ih seen out adds adds'
        · rw [if_neg hd1]
          by_cases hd2 : item.depth ≥ cfg.maxDepth
          · rw [if_pos hd2]
            cases hlp : urlparseM can with
            | none =>
              exact ih seen out adds adds'
            | some lp =>
              dsimp only
              by_cases hnet : lowerStr lp.netloc ≠ cfg.baseNetloc
              · rw [if_pos hnet]
                exact ih seen out adds adds'
              · rw [if_neg hnet]
                by_cases hscope : ¬ cfg.scopePref.isPrefixOf lp.path = true
                · rw [if_pos hscope]
                  exact ih seen out adds adds'
                · rw [if_neg hscope]
                  by_cases hexc : pathIsExcluded lp.path cfg.excl = true
                  · rw [if_pos hexc]
                    exact ih seen out adds adds'
                  · rw [if_neg hexc]
                    by_cases hnv : can ∉ visited
                    · rw [if_pos hnv]
                      exact ih seen out _ adds'
                    · rw [if_neg hnv]
                      exact ih seen out adds adds'
          · rw [if_neg hd2]
            cases hlp : urlparseM can with
            | none =>
              exact ih seen out adds adds'
            | some lp =>
              dsimp only
              by_cases hnet : lowerStr lp.netloc ≠ cfg.baseNetloc
              · rw [if_pos hnet, if_pos hnet]
                exact ih seen out adds adds'
              · rw [if_neg hnet, if_neg hnet]
                by_cases hscope : ¬ cfg.scopePref.isPrefixOf lp.path = true
                · rw [if_pos hscope, if_pos hscope]
                  exact ih seen out adds adds'
                · rw [if_neg hscope, if_neg hscope]
                  by_cases hexc : pathIsExcluded lp.path cfg.excl = true
                  · rw [if_pos hexc, if_pos hexc]
                    exact ih seen out adds adds'
                  · rw [if_neg hexc, if_neg hexc]
                    by_cases hnv : can ∉ visited
                    · rw [if_pos hnv, if_pos hnv]
                      exact ih seen out _ _
                    · rw [if_neg hnv, if_neg hnv]
                      exact ih seen out adds adds'

set_option maxRecDepth 100000 in
/-- C2: the frontier crawl engine respects the depth limit: in every run,
every fetch the loop performs is of a queue item whose depth is at most
max_depth (enqueueing is suppressed at the limit), while document
emission of the generic branch does not depend on max_depth at all
(changing max_depth changes only the enqueued pages, never the emitted
records); in the demo world the page at depth max_depth is fetched and
its document is emitted, and its deeper child page is never fetched. -/
theorem C2_depth_bound :
    (∀ (world : Str → Option DevbPage) (cfg : DevbCfg) (fuel : Nat)
        (st : DevbState), devbCrawl world cfg fuel = some st →
        ∀ e ∈ st.fetchLog, e.2 ≤ cfg.maxDepth) ∧
    (∀ (cfg : DevbCfg) (d : Nat) (seedCan : Str) (item : DQItem)
        (visited : List Str) (links : List HLink) (seen : List Str)
        (out : List DevbRec) (adds adds' : List DQItem),
        (processLinksGeneric { cfg with maxDepth := d } seedCan item visited
          links seen out adds).2.1
          = (processLinksGeneric cfg seedCan item visited links seen out
              adds').2.1) ∧
    (devbCrawl devbDemoWorld devbDemoCfg 10).map DevbState.fetchLog
      = some [(devbUrl "index.html", 0), (devbUrl "sub/index.html", 1)] ∧
    (devbCrawlRecords devbDemoWorld devbDemoCfg 10).map (List.map DevbRec.url)
      = some [devbUrl "doc1.pdf", devbUrl "doc2.pdf"] := by
  refine ⟨?_, ?_, ?_, ?_⟩
  · intro world cfg fuel st h e he
    exact ((devbCrawl_inv world cfg fuel st h).2.2.2.2.1 e he).1
  · intro cfg d seedCan item visited links seen out adds adds'
    exact (processLinksGeneric_depth_irrel cfg d seedCan item visited links
      seen out adds adds').2
  · rfl
  · rfl

set_option maxRecDepth 100000 in
/-- Witness for C2 at the demo world: the subpage fetch at depth 1 is
within the configured limit of 1. -/
theorem C2_depth_bound_witness :
    ((devbUrl "sub/index.html", 1) : Str × Nat).2 ≤ devbDemoCfg.maxDepth :=
  C2_depth_bound.1 devbDemoWorld devbDemoCfg 10
    ((devbCrawl devbDemoWorld devbDemoCfg 10).getD (devbInit []))
    (by rfl) (devbUrl "sub/index.html", 1) (by decide)

lemma find?_map_aSet_hit {α : Type} (k : Str) (v : α) :
    ∀ d : List (Str × α), d.any (fun x => decide (x.1 = k)) = true →
      ((d.map fun kv => if kv.1 = k then (k, v) else kv).find?
        fun x => decide (x.1 = k)) = some (k, v) := by
  intro d
  induction d with
  | nil => simp
  | cons kv rest ih =>
    intro hany
    by_cases h : kv.1 = k
    · simp only [List.map_cons, if_pos h]
      exact List.find?_cons_of_pos _ (by simp)
    · simp only [List.any_cons] at hany
      rw [Bool.or_eq_true] at hany
      rcases hany with hany | hany
      · exact absurd (of_decide_eq_true hany) h
      · simp only [List.map_cons, if_neg h]
        rw [List.find?_cons_of_neg _ (by simp [h])]
        exact ih hany

lemma find?_map_aSet_miss {α : Type} (k k' : Str) (v : α) (hne : k' ≠ k) :
    ∀ d : List (Str × α),
      ((d.map fun kv => if kv.1 = k then (k, v) else kv).find?
        fun x => decide (x.1 = k'))
        = d.find? fun x => decide (x.1 = k') := by
  intro d
  induction d with
  | nil => rfl
  | cons kv rest ih =>
    by_cases h : kv.1 = k
    · simp only [List.map_cons, if_pos h]
      rw [List.find?_cons_of_neg _ (by simp; exact fun he => hne he.symm),
        List.find?_cons_of_neg _ (by simp [h]; exact fun he => hne he.symm)]
      exact ih
    · simp only [List.map_cons, if_neg h]
      by_cases hk : kv.1 = k'
      · rw [List.find?_cons_of_pos _ (by simp [hk]),
          List.find?_cons_of_pos _ (by simp [hk])]
      · rw [List.find?_cons_of_neg _ (by simp [hk]),
          List.find?_cons_of_neg _ (by simp [hk])]
        exact ih

lemma find?_append_single {α : Type} (k k' : Str) (v : α) :
    ∀ d : List (Str × α), d.any (fun x => decide (x.1 = k)) = false →
      ((d ++ [(k, v)]).find? fun x => decide (x.1 = k'))
        = if k' = k then some (k, v) else d.find? fun x => decide (x.1 = k') := by
  intro d
  induction d with
  | nil =>
    intro _
    by_cases h : k' = k
    · rw [if_pos h]
      simp only [List.nil_append]
      exact List.find?_cons_of_pos _ (by simp [h.symm])
    · rw [if_neg h]
      simp only [List.nil_append, List.find?_nil]
      exact List.find?_cons_of_neg _ (by simp; exact fun he => h he.symm)
  | cons kv rest ih =>
    intro hany
    simp only [List.any_cons, Bool.or_eq_false_iff] at hany
    by_cases hk : kv.1 = k'
    · simp only [List.cons_append]
      rw [List.find?_cons_of_pos _ (by simp [hk]),
        List.find?_cons_of_pos _ (by simp [hk])]
      by_cases h : k' = k
      · exact absurd hany.1 (by simp [hk.trans h])
      · rw [if_neg h]
    · simp only [List.cons_append]
      rw [List.find?_cons_of_neg _ (by simp [hk]),
        List.find?_cons_of_neg _ (by simp [hk])]
      exact ih hany.2

lemma aGet_aSet_self {α : Type} (k : Str) (v : α) (d : List (Str × α)) :
    aGet (aSet d k v) k = some v := by
  unfold aGet aSet
  by_cases hany : d.any (fun x => decide (x.1 = k)) = true
  · rw [if_pos hany, find?_map_aSet_hit k v d hany]
    rfl
  · rw [if_neg hany,
      find?_append_single k k v d (Bool.eq_false_iff.mpr hany), if_pos rfl]
    rfl

lemma aGet_aSet_ne {α : Type} (k k' : Str) (v : α) (hne : k' ≠ k)
    (d : List (Str × α)) : aGet (aSet d k v) k' = aGet d k' := by
  unfold aGet aSet
  by_cases hany : d.any (fun x => decide (x.1 = k)) = true
  · rw [if_pos hany, find?_map_aSet_miss k k' v hne d]
  · rw [if_neg hany,
      find?_append_single k k' v d (Bool.eq_false_iff.mpr hany), if_neg hne]

lemma listModify_length {α : Type} (f : α → α) :
    ∀ (n : Nat) (l : List α), (listModify f n l).length = l.length := by
  intro n
  induction n with
  | zero => intro l; cases l <;> rfl
  | succ n ih =>
    intro l
    cases l with
    | nil => rfl
    | cons x xs => simp [listModify, ih]

lemma listModify_get_self {α : Type} (f : α → α) :
    ∀ (n : Nat) (l : List α),
      (listModify f n l).get? n = (l.get? n).map f := by
  intro n
  induction n with
  | zero => intro l; cases l <;> rfl
  | succ n ih =>
    intro l
    cases l with
    | nil => rfl
    | cons x xs => simpa [listModify] using ih xs

lemma listModify_get_ne {α : Type} (f : α → α) :
    ∀ (n m : Nat) (l : List α), m ≠ n →
      (listModify f n l).get? m = l.get? m := by
  intro n
  induction n with
  | zero =>
    intro m l hm
    cases l with
    | nil => rfl
    | cons x xs =>
      cases m with
      | zero => exact absurd rfl hm
      | succ m => rfl
  | succ n ih =>
    intro m l hm
    cases l with
    | nil => rfl
    | cons x xs =>
      cases m with
      | zero => rfl
      | succ m => simpa [listModify] using ih m xs (fun he => hm (by omega))

lemma mergeExisting_dedupKey (pageUrl url : Str) (recv : TelRec) :
    (mergeExisting pageUrl url recv).meta.dedupKey = recv.meta.dedupKey := by
  unfold mergeExisting
  dsimp only
  split <;> rfl

lemma telCreate_pres (st : TelState) (recv : TelRec)
    (hnone : aGet st.byKey recv.meta.dedupKey = none)
    (h : TelStoreInv st) :
    TelStoreInv { st with
      store := st.store ++ [recv]
      byKey := aSet st.byKey recv.meta.dedupKey st.store.length
      out := st.out ++ [st.store.length] } := by
  obtain ⟨ho, hm⟩ := h
  constructor
  · simp only [ho, List.length_append, List.length_singleton]
    rw [List.range_succ]
  · intro i r hr
    dsimp only at hr
    rcases Nat.lt_trichotomy i st.store.length with hi | hi | hi
    · rw [List.get?_append hi] at hr
      have hik := hm i r hr
      have hrk : r.meta.dedupKey ≠ recv.meta.dedupKey := fun he => by
        rw [he, hnone] at hik
        exact Option.noConfusion hik
      rw [aGet_aSet_ne recv.meta.dedupKey r.meta.dedupKey st.store.length hrk
        st.byKey]
      exact hik
    · subst hi
      rw [List.get?_concat_length] at hr
      injection hr with hr
      subst hr
      exact aGet_aSet_self recv.meta.dedupKey st.store.length st.byKey
    · rw [List.get?_eq_none.mpr (by simp; omega)] at hr
      exact Option.noConfusion hr

lemma telModify_pres (st : TelState) (idx : Nat) (f : TelRec → TelRec)
    (hf : ∀ r, (f r).meta.dedupKey = r.meta.dedupKey)
    (h : TelStoreInv st) :
    TelStoreInv { st with store := listModify f idx st.store } := by
  obtain ⟨ho, hm⟩ := h
  constructor
  · simpa only [listModify_length] using ho
  · intro i r hr
    dsimp only at hr
    by_cases hi : i = idx
    · subst hi
      rw [listModify_get_self] at hr
      cases hrr : st.store.get? i with
      | none => rw [hrr] at hr; exact Option.noConfusion hr
      | some r0 =>
        rw [hrr, Option.map_some'] at hr
        injection hr with hr
        subst hr
        rw [hf]
        exact hm i r0 hrr
    · rw [listModify_get_ne f idx i st.store hi] at hr
      exact hm i r hr

lemma ensureStep_pres (da pu : Str) (dp : List Str) (st : TelState)
    (e : TEntry) (h : TelStoreInv st) :
    TelStoreInv (ensureStep da pu dp st e) ∧
    (ensureStep da pu dp st e).queue = st.queue ∧
    (ensureStep da pu dp st e).visited = st.visited ∧
    (ensureStep da pu dp st e).fetchLog = st.fetchLog ∧
    (ensureStep da pu dp st e).pageEntries = st.pageEntries := by
  unfold ensureStep
  dsimp only
  split
  · exact ⟨h, rfl, rfl, rfl, rfl⟩
  · split
    · exact ⟨h, rfl, rfl, rfl, rfl⟩
    · rename_i hsome
      refine ⟨?_, rfl, rfl, rfl, rfl⟩
      exact telCreate_pres st _
        (Option.not_isSome_iff_eq_none.mp hsome) h

lemma ensureFold_pres (da pu : Str) (dp : List Str) :
    ∀ (entries : List TEntry) (st : TelState), TelStoreInv st →
      TelStoreInv (entries.foldl (ensureStep da pu dp) st) ∧
      (entries.foldl (ensureStep da pu dp) st).queue = st.queue ∧
      (entries.foldl (ensureStep da pu dp) st).visited = st.visited ∧
      (entries.foldl (ensureStep da pu dp) st).fetchLog = st.fetchLog ∧
      (entries.foldl (ensureStep da pu dp) st).pageEntries = st.pageEntries := by
  intro entries
  induction entries with
  | nil => intro st h; exact ⟨h, rfl, rfl, rfl, rfl⟩
  | cons e rest ih =>
    intro st h
    obtain ⟨h1, h2, h3, h4, h5⟩ := ensureStep_pres da pu dp st e h
    obtain ⟨g1, g2, g3, g4, g5⟩ := ih (ensureStep da pu dp st e) h1
    simp only [List.foldl_cons]
    exact ⟨g1, g2.trans h2, g3.trans h3, g4.trans h4, g5.trans h5⟩

lemma ensureRecords_pres (da pu : Str) (dp : List Str) (st : TelState)
    (h : TelStoreInv st) :
    TelStoreInv (ensureRecords da pu dp st) ∧
    (ensureRecords da pu dp st).queue = st.queue ∧
    (ensureRecords da pu dp st).visited = st.visited ∧
    (ensureRecords da pu dp st).fetchLog = st.fetchLog := by
  unfold ensureRecords
  cases hpe : aGet st.pageEntries pu with
  | none => exact ⟨h, rfl, rfl, rfl⟩
  | some entries =>
    obtain ⟨g1, g2, g3, g4, -⟩ := ensureFold_pres da pu dp entries st h
    exact ⟨g1, g2, g3, g4⟩

lemma processPeople_pres (m : Nat) (da pu : Str) (dp : List Str)
    (ex : Option Str → Option Str) :
    ∀ (people : List TPerson) (st : TelState) (entries : List TEntry),
      TelStoreInv st →
      TelStoreInv (processPeople m da pu dp ex people st entries).1 ∧
      (processPeople m da pu dp ex people st entries).1.queue = st.queue ∧
      (processPeople m da pu dp ex people st entries).1.visited = st.visited ∧
      (processPeople m da pu dp ex people st entries).1.fetchLog = st.fetchLog := by
  intro people
  induction people with
  | nil => intro st entries h; exact ⟨h, rfl, rfl, rfl⟩
  | cons p rest ih =>
    intro st entries h
    unfold processPeople
    split
    · exact ih st entries h
    · cases hbk : aGet st.byKey (telPersonKey dp p) with
      | none =>
        dsimp only
        by_cases hcap : (st.out ++ [st.store.length]).length ≥ m
        · rw [if_pos hcap]
          exact ⟨telCreate_pres st (telPersonRec da pu dp ex p) hbk h,
            rfl, rfl, rfl⟩
        · rw [if_neg hcap]
          obtain ⟨g1, g2, g3, g4⟩ :=
            ih _ _ (telCreate_pres st (telPersonRec da pu dp ex p) hbk h)
          exact ⟨g1, g2, g3, g4⟩
      | some idx =>
        dsimp only
        by_cases hcap : st.out.length ≥ m
        · rw [if_pos hcap]
          exact ⟨telModify_pres st idx _
            (fun r => mergeExisting_dedupKey _ _ r) h, rfl, rfl, rfl⟩
        · rw [if_neg hcap]
          obtain ⟨g1, g2, g3, g4⟩ := ih _ _ (telModify_pres st idx _
            (fun r => mergeExisting_dedupKey _ _ r) h)
          exact ⟨g1, g2, g3, g4⟩

lemma processTelLinks_pres (da : Str) (dp : List Str)
    (ot : List (Str × List Str)) :
    ∀ (links : List HLink) (st : TelState), TelStoreInv st →
      TelStoreInv (processTelLinks da dp ot links st) ∧
      (processTelLinks da dp ot links st).visited = st.visited ∧
      (processTelLinks da dp ot links st).fetchLog = st.fetchLog := by
  intro links
  induction links with
  | nil => intro st h; exact ⟨h, rfl, rfl⟩
  | cons link rest ih =>
    intro st h
    unfold processTelLinks
    dsimp only
    split
    · exact ih st h
    · split
      · exact ih st h
      · split
        · exact ih st h
        · split
          · obtain ⟨h1, h2, h3, h4⟩ := ensureRecords_pres da _ _ st h
            obtain ⟨g1, g2, g3⟩ := ih _ h1
            exact ⟨g1, g2.trans h3, g3.trans h4⟩
          · exact ih _ h

lemma telLoop_inv (world : Str → Option TelPage) (mp mr : Nat)
    (ex : Option Str → Option Str) (da : Str) :
    ∀ (fuel : Nat) (st st' : TelState), TelInv st →
      telLoop world mp mr ex da fuel st = some st' → TelInv st' := by
  intro fuel
  induction fuel with
  | zero =>
    intro st st' hinv h
    unfold telLoop at h
    injection h with h
    exact h ▸ hinv
  | succ fuel ih =>
    intro st st' hinv h
    obtain ⟨hsync, hnd, hstore⟩ := hinv
    unfold telLoop at h
    cases hqe : st.queue with
    | nil =>
      rw [hqe] at h
      injection h with h
      exact h ▸ ⟨hsync, hnd, hstore⟩
    | cons item rest =>
      rw [hqe] at h
      dsimp only at h
      by_cases hvis : item.url ∈ st.visited
      · rw [if_pos hvis] at h
        exact ih { st with queue := rest } st' ⟨hsync, hnd, hstore⟩ h
      · rw [if_neg hvis] at h
        by_cases hcap : st.visited.length ≥ mp
        · rw [if_pos hcap] at h
          injection h with h
          exact h ▸ ⟨hsync, hnd, hstore⟩
        · rw [if_neg hcap] at h
          cases hw : world item.url with
          | none =>
            rw [hw] at h
            dsimp only at h
            exact Option.noConfusion h
          | some page =>
            rw [hw] at h
            dsimp only at h
            obtain ⟨p1, p2, p3, p4⟩ := processPeople_pres mr da item.url
              (telDeptPath page item) ex (extractPeopleFromRows page.rows)
              (telFetchState st item rest) [] hstore
            have q1 : TelStoreInv
                (telPeopleRun mr da ex item page (telFetchState st item rest)).1 := p1
            have q3 : (telPeopleRun mr da ex item page
                (telFetchState st item rest)).1.visited = item.url :: st.visited := p3
            have q4 : (telPeopleRun mr da ex item page
                (telFetchState st item rest)).1.fetchLog
                = st.fetchLog ++ [item.url] := p4
            by_cases hrec : (telPeopleRun mr da ex item page
                (telFetchState st item rest)).1.out.length ≥ mr
            · rw [if_pos hrec] at h
              injection h with h
              subst h
              refine ⟨?_, ?_, q1⟩
              · rw [q3, q4]
                simp [hsync]
              · rw [q3]
                exact List.nodup_cons.mpr ⟨hvis, hnd⟩
            · rw [if_neg hrec] at h
              obtain ⟨t1, t2, t3⟩ := processTelLinks_pres da
                (telDeptPath page item) page.officeTree page.links
                { (telPeopleRun mr da ex item page (telFetchState st item rest)).1 with
                  pageEntries := aSet
                    (telPeopleRun mr da ex item page
                      (telFetchState st item rest)).1.pageEntries
                    item.url
                    (telPeopleRun mr da ex item page (telFetchState st item rest)).2 }
                q1
              have s2 : (telAfterPage mr da ex item page
                  (telFetchState st item rest)).visited = item.url :: st.visited :=
                t2.trans q3
              have s3 : (telAfterPage mr da ex item page
                  (telFetchState st item rest)).fetchLog
                  = st.fetchLog ++ [item.url] :=
                t3.trans q4
              have s1 : TelStoreInv
                  (telAfterPage mr da ex item page (telFetchState st item rest)) := t1
              refine ih _ _ ⟨?_, ?_, s1⟩ h
              · rw [s2, s3]
                simp [hsync]
              · rw [s2]
                exact List.nodup_cons.mpr ⟨hvis, hnd⟩

lemma telInit_inv (start : Str) : TelInv (telInit start) := by
  refine ⟨rfl, List.nodup_nil, rfl, ?_⟩
  intro i r hr
  rw [List.get?_eq_none.mpr (Nat.zero_le i)] at hr
  exact Option.noConfusion hr

/-- C3: scope containment and at-most-once fetching.  In every devb run,
every fetched URL parses to the crawl host with the scope path prefix and
is not excluded; no URL is fetched twice; explicitly skipped URLs are
never fetched.  In every directory run the fetch log likewise holds no
URL twice (a popped URL already in the visited set is dropped without a
refetch). -/
theorem C3_scope_and_single_fetch :
    (∀ (world : Str → Option DevbPage) (cfg : DevbCfg) (fuel : Nat)
        (st : DevbState), devbCrawl world cfg fuel = some st →
        (∀ e ∈ st.fetchLog, ∃ p : UrlParts, urlparseM e.1 = some p ∧
            lowerStr p.netloc = cfg.baseNetloc ∧
            cfg.scopePref.isPrefixOf p.path = true ∧
            pathIsExcluded p.path cfg.excl = false) ∧
        (st.fetchLog.map Prod.fst).Nodup ∧
        (∀ u ∈ st.skipped, u ∉ st.fetchLog.map Prod.fst)) ∧
    (∀ (world : Str → Option TelPage) (mp mr : Nat)
        (ex : Option Str → Option Str) (da : Str) (fuel : Nat)
        (start : Str) (st : TelState),
        telLoop world mp mr ex da fuel (telInit start) = some st →
        st.fetchLog.Nodup) := by
  constructor
  · intro world cfg fuel st h
    obtain ⟨-, hsync, hnd, hskip, hfetch, -⟩ := devbCrawl_inv world cfg fuel st h
    refine ⟨fun e he => (hfetch e he).2, ?_, ?_⟩
    · rw [hsync] at hnd
      exact (List.nodup_reverse).mp hnd
    · intro u hu hmem
      exact hskip u hu (hsync ▸ List.mem_reverse.mpr hmem)
  · intro world mp mr ex da fuel start st h
    obtain ⟨hsync, hnd, -⟩ := telLoop_inv world mp mr ex da fuel _ st
      (telInit_inv start) h
    rw [hsync] at hnd
    exact (List.nodup_reverse).mp hnd

/-- Witness for C3 at the dedup-merge directory world: the four-page run
fetches each page once. -/
theorem C3_scope_and_single_fetch_witness :
    (((telLoop telMergeWorld 100 1000 (fun _ => none) "T".data 10
        (telInit (telUrl "index_eng.html"))).getD
          (telInit [])).fetchLog).Nodup :=
  C3_scope_and_single_fetch.2 telMergeWorld 100 1000 (fun _ => none)
    "T".data 10 (telUrl "index_eng.html")
    ((telLoop telMergeWorld 100 1000 (fun _ => none) "T".data 10
      (telInit (telUrl "index_eng.html"))).getD (telInit []))
    (by rfl)

lemma filterMap_get_range {α : Type} (l : List α) :
    (List.range l.length).filterMap l.get? = l := by
  induction l with
  | nil => rfl
  | cons x xs ih =>
    rw [List.length_cons, List.range_succ_eq_map, List.filterMap_cons]
    simp only [List.get?_cons_zero]
    rw [List.filterMap_map]
    have hc : ((x :: xs).get? ∘ fun i => i + 1) = xs.get? := by
      funext i
      simp [List.get?_cons_succ]
    rw [hc, ih]

lemma telOutRecs_eq_store (st : TelState) (h : TelStoreInv st) :
    telOutRecs st = st.store := by
  obtain ⟨ho, -⟩ := h
  unfold telOutRecs
  rw [ho]
  exact filterMap_get_range st.store

lemma telStore_pairwise (st : TelState) (h : TelStoreInv st) :
    st.store.Pairwise (fun a b => a.meta.dedupKey ≠ b.meta.dedupKey) := by
  obtain ⟨-, hm⟩ := h
  rw [List.pairwise_iff_get]
  intro i j hij hkeq
  have hi := hm i.val (st.store.get i) (List.get?_eq_get i.isLt)
  have hj := hm j.val (st.store.get j) (List.get?_eq_get j.isLt)
  rw [hkeq] at hi
  rw [hi] at hj
  injection hj with hj
  omega

/-- C1 counterexample: in the dedup-merge scenario the single merged
record's department-path list holds only the pinned root breadcrumb; the
two full breadcrumbs under which the contact was sighted are never
appended to it, contrary to the claim that it contains both. -/
theorem C1_counterexample :
    telMergeOut.map (List.map fun r => r.meta.departmentPaths)
      = some [[["Bureau A".data]]] ∧
    ["Bureau A".data, "Division 1".data] ∉ [["Bureau A".data]] ∧
    ["Bureau A".data, "Division 2".data] ∉ [["Bureau A".data]] := by
  refine ⟨by rfl, by decide, by decide⟩

set_option maxRecDepth 100000 in
/-- C1 amended: every directory crawl emits at most one record per dedup
key (two sightings with the same normalized phone and resolved department
merge into one record); in the dedup-merge scenario the merged record
keeps the pinned root breadcrumb as its only department path while both
sighting page URLs are appended to the alternate-discovery list; the
legacy flat tel_directory crawler's _merge_department_path helper is the
one that appends a newly seen distinct breadcrumb. -/
theorem C1_amended :
    (∀ (world : Str → Option TelPage) (indexUrl : Str) (mp mr : Nat)
        (ex : Option Str → Option Str) (da : Str) (fuel : Nat)
        (recs : List TelRec),
        telCrawlRecords world indexUrl mp mr ex da fuel = some recs →
        recs.Pairwise (fun a b => a.meta.dedupKey ≠ b.meta.dedupKey)) ∧
    telMergeOut.map (List.map fun r =>
        (r.meta.dedupKey, r.meta.departmentPaths, r.meta.discoveredFromUrls))
      = some [("23456789|Bureau A".data, [["Bureau A".data]],
          some [telUrl "div1_eng.html", telUrl "div2_eng.html"])] ∧
    (∀ (ps : List (List Str)) (path : List Str), path ≠ [] → path ∉ ps →
        mergeDepartmentPath (some ps) path = some (ps ++ [path])) := by
  refine ⟨?_, by rfl, ?_⟩
  · intro world indexUrl mp mr ex da fuel recs h
    unfold telCrawlRecords at h
    split at h
    · injection h with h
      exact h ▸ List.Pairwise.nil
    · rename_i start hcanon
      cases hl : telLoop world mp mr ex da fuel (telInit start) with
      | none =>
        rw [hl] at h
        exact Option.noConfusion h
      | some st =>
        rw [hl] at h
        simp only [Option.map_some'] at h
        injection h with h
        subst h
        have hinv := telLoop_inv world mp mr ex da fuel _ st
          (telInit_inv start) hl
        have hp := telStore_pairwise st hinv.2.2
        rw [← telOutRecs_eq_store st hinv.2.2] at hp
        exact ((List.perm_insertionSort _ (telOutRecs st)).pairwise_iff
          (fun hab => Ne.symm hab)).mpr hp
  · intro ps path hne hmem
    unfold mergeDepartmentPath
    rw [if_neg hne]
    dsimp only
    rw [if_neg hmem]

set_option maxRecDepth 100000 in
/-- Witness for C1: the merge scenario's output has pairwise distinct
dedup keys, and the legacy merge helper appends a new breadcrumb. -/
theorem C1_amended_witness :
    ((telMergeOut.getD []).Pairwise
      (fun a b => a.meta.dedupKey ≠ b.meta.dedupKey)) ∧
    mergeDepartmentPath (some [["Bureau A".data]])
        ["Bureau A".data, "Division 1".data]
      = some [["Bureau A".data], ["Bureau A".data, "Division 1".data]] :=
  ⟨C1_amended.1 telMergeWorld (telUrl "index_eng.html") 100 1000
      (fun _ => none) "T".data 10 (telMergeOut.getD []) (by rfl),
   C1_amended.2.2 [["Bureau A".data]] ["Bureau A".data, "Division 1".data]
      (by decide) (by decide)⟩

set_option maxRecDepth 100000 in
/-- C6: enquiry pinning.  An enquiry-like contact is pinned to the
normalized department root: whatever two breadcrumbs it is sighted under,
the effective department path is the root singleton in both cases and the
dedup keys coincide, so the dedup-merge scenario (the same Enquiry phone
under Division 1 and Division 2 of Bureau A) emits exactly one record. -/
theorem C6_enquiry_pinning :
    (∀ (dp1 dp2 : List Str) (root r : Str),
        normDeptId (some root) = some r →
        effectiveDeptPath dp1 true (some root) = [r] ∧
        effectiveDeptPath dp2 true (some root) = [r] ∧
        ∀ phone : Str,
          dedupKeyF phone (departmentIdF true (some root)
            (effectiveDeptPath dp1 true (some root)))
            = dedupKeyF phone (departmentIdF true (some root)
                (effectiveDeptPath dp2 true (some root)))) ∧
    telMergeOut.map List.length = some 1 := by
  refine ⟨?_, by rfl⟩
  intro dp1 dp2 root r hr
  have htruthy : pyTruthyOS (some root) = true := by
    unfold normDeptId at hr
    simp only [Option.getD_some] at hr
    by_cases hnil : pyNormWs root = []
    · rw [if_pos hnil] at hr
      exact Option.noConfusion hr
    · have hroot : root ≠ [] := by
        intro he
        exact hnil (by rw [he]; rfl)
      simp [pyTruthyOS, hroot]
  have heff : ∀ dp : List Str,
      effectiveDeptPath dp true (some root) = [r] := by
    intro dp
    unfold effectiveDeptPath
    rw [if_neg (by simp [htruthy]), if_pos rfl, hr]
  exact ⟨heff dp1, heff dp2, fun phone => rfl⟩

/-- Witness for C6: the Bureau A breadcrumbs of the merge scenario both
pin to the root. -/
theorem C6_enquiry_pinning_witness :
    effectiveDeptPath ["Bureau A".data, "Division 1".data] true
        (some "Bureau A".data) = ["Bureau A".data] ∧
    effectiveDeptPath ["Bureau A".data, "Division 2".data] true
        (some "Bureau A".data) = ["Bureau A".data] :=
  ⟨(C6_enquiry_pinning.1 ["Bureau A".data, "Division 2".data]
      ["Bureau A".data, "Division 1".data] "Bureau A".data "Bureau A".data
      (by rfl)).2.1,
   (C6_enquiry_pinning.1 ["Bureau A".data, "Division 1".data]
      ["Bureau A".data, "Division 2".data] "Bureau A".data "Bureau A".data
      (by rfl)).2.1⟩

lemma breakAtChar_fst_mem (c : Char) :
    ∀ (s : Str) (x : Char), x ∈ (breakAtChar c s).1 → x ∈ s ∧ x ≠ c := by
  intro s
  induction s with
  | nil => intro x hx; exact absurd hx (by simp [breakAtChar])
  | cons a as ih =>
    intro x hx
    unfold breakAtChar at hx
    split at hx
    · exact absurd hx (by simp)
    · rename_i ha
      dsimp only at hx
      rcases List.mem_cons.mp hx with rfl | hx
      · exact ⟨List.mem_cons_self _ _, ha⟩
      · obtain ⟨h1, h2⟩ := ih x hx
        exact ⟨List.mem_cons_of_mem _ h1, h2⟩

lemma breakAtChar_snd_mem (c : Char) :
    ∀ (s b : Str), (breakAtChar c s).2 = some b → ∀ x ∈ b, x ∈ s := by
  intro s
  induction s with
  | nil => intro b hb; exact absurd hb (by simp [breakAtChar])
  | cons a as ih =>
    intro b hb x hx
    unfold breakAtChar at hb
    split at hb
    · dsimp only at hb
      injection hb with hb
      subst hb
      exact List.mem_cons_of_mem _ hx
    · dsimp only at hb
      exact List.mem_cons_of_mem _ (ih b hb x hx)

lemma splitFrag_fst_mem (s : Str) (x : Char) (hx : x ∈ (splitFrag s).1) :
    x ∈ s ∧ x ≠ '#' := by
  have he : (splitFrag s).1 = (breakAtChar '#' s).1 := by
    unfold splitFrag
    rcases hb : breakAtChar '#' s with ⟨a, ob⟩
    cases ob <;> rfl
  rw [he] at hx
  exact breakAtChar_fst_mem '#' s x hx

lemma splitQuery_fst_mem (s : Str) (x : Char) (hx : x ∈ (splitQuery s).1) :
    x ∈ s := by
  have he : (splitQuery s).1 = (breakAtChar '?' s).1 := by
    unfold splitQuery
    rcases hb : breakAtChar '?' s with ⟨a, ob⟩
    cases ob <;> rfl
  rw [he] at hx
  exact (breakAtChar_fst_mem '?' s x hx).1

lemma splitQuery_snd_mem (s : Str) (x : Char) (hx : x ∈ (splitQuery s).2) :
    x ∈ s := by
  unfold splitQuery at hx
  rcases hb : breakAtChar '?' s with ⟨a, ob⟩
  rw [hb] at hx
  cases ob with
  | none => exact absurd hx (by simp)
  | some b => exact breakAtChar_snd_mem '?' s b (by rw [hb]) x hx

lemma splitAtLastChar_fst_mem (c : Char) (s : Str) (x : Char)
    (hx : x ∈ (splitAtLastChar c s).1) : x ∈ s := by
  unfold splitAtLastChar at hx
  rcases hb : breakAtChar c s.reverse with ⟨rb, ob⟩
  rw [hb] at hx
  cases ob with
  | none => exact absurd hx (by simp)
  | some ra =>
    dsimp only at hx
    rw [List.mem_reverse] at hx
    have := breakAtChar_snd_mem c s.reverse ra (by rw [hb]) x hx
    rwa [List.mem_reverse] at this

lemma splitAtLastChar_snd_mem (c : Char) (s : Str) (x : Char)
    (hx : x ∈ (splitAtLastChar c s).2) : x ∈ s := by
  unfold splitAtLastChar at hx
  rcases hb : breakAtChar c s.reverse with ⟨rb, ob⟩
  rw [hb] at hx
  cases ob with
  | none => exact hx
  | some ra =>
    dsimp only at hx
    rw [List.mem_reverse] at hx
    have := (breakAtChar_fst_mem c s.reverse x (by rw [hb]; exact hx)).1
    rwa [List.mem_reverse] at this

lemma splitParams_fst_mem (u : Str) (x : Char)
    (hx : x ∈ (splitParamsF u).1) : x ∈ u ∨ x = '/' := by
  unfold splitParamsF at hx
  split at hx
  · dsimp only at hx
    rcases hb : breakAtChar ';' (splitAtLastChar '/' u).2 with ⟨b1, ob⟩
    rw [hb] at hx
    cases ob with
    | none => exact Or.inl hx
    | some b2 =>
      dsimp only at hx
      rcases List.mem_append.mp hx with hx | hx
      · exact Or.inl (splitAtLastChar_fst_mem '/' u x hx)
      · rcases List.mem_cons.mp hx with rfl | hx
        · exact Or.inr rfl
        · have := (breakAtChar_fst_mem ';' _ x (by rw [hb]; exact hx)).1
          exact Or.inl (splitAtLastChar_snd_mem '/' u x this)
  · rcases hb : breakAtChar ';' u with ⟨u1, ob⟩
    rw [hb] at hx
    cases ob with
    | none => exact Or.inl hx
    | some u2 =>
      exact Or.inl (breakAtChar_fst_mem ';' u x (by rw [hb]; exact hx)).1

lemma splitParams_snd_mem (u : Str) (x : Char)
    (hx : x ∈ (splitParamsF u).2) : x ∈ u := by
  unfold splitParamsF at hx
  split at hx
  · dsimp only at hx
    rcases hb : breakAtChar ';' (splitAtLastChar '/' u).2 with ⟨b1, ob⟩
    rw [hb] at hx
    cases ob with
    | none => exact absurd hx (by simp)
    | some b2 =>
      dsimp only at hx
      have := breakAtChar_snd_mem ';' _ b2 (by rw [hb]) x hx
      exact splitAtLastChar_snd_mem '/' u x this
  · rcases hb : breakAtChar ';' u with ⟨u1, ob⟩
    rw [hb] at hx
    cases ob with
    | none => exact absurd hx (by simp)
    | some u2 => exact breakAtChar_snd_mem ';' u u2 (by rw [hb]) x hx

lemma lowerStr_hash (s : Str) (h : '#' ∈ lowerStr s) : '#' ∈ s := by
  unfold lowerStr at h
  rcases List.mem_map.mp h with ⟨y, hy, hxy⟩
  rcases pyToLower_cases y with h2 | h2
  · rw [h2] at hxy
    exact hxy ▸ hy
  · rw [hxy] at h2
    exact absurd h2 (by decide)

lemma rstripSlash_mem (s : Str) (x : Char) (h : x ∈ rstripSlash s) :
    x ∈ s := by
  unfold rstripSlash at h
  rw [List.mem_reverse] at h
  have := (List.dropWhile_sublist _).subset h
  rwa [List.mem_reverse] at this

lemma canonNormPath_hash (t : Bool) (p : Str)
    (h : '#' ∈ canonNormPath t p) : '#' ∈ p := by
  unfold canonNormPath at h
  dsimp only at h
  by_cases hp : p = []
  · rw [if_pos hp] at h
    rw [if_neg (by simp)] at h
    simp at h
  · rw [if_neg hp] at h
    split at h
    · exact rstripSlash_mem p '#' h
    · exact h

lemma splitScheme_fst_hash (s : Str) : '#' ∉ (splitScheme s).1 := by
  intro h
  unfold splitScheme at h
  rcases hb : breakAtChar ':' s with ⟨pre, ob⟩
  rw [hb] at h
  cases ob with
  | none => exact absurd h (by simp)
  | some rest =>
    dsimp only at h
    split at h
    · rename_i hcond
      have hpre : '#' ∈ pre := lowerStr_hash pre h
      have := hcond.2.2
      rw [List.all_eq_true] at this
      have := this '#' hpre
      exact absurd this (by decide)
    · exact absurd h (by simp)

lemma splitNetloc_fst_hash (s : Str) (nr : Str × Str)
    (h : splitNetloc s = some nr) : '#' ∉ nr.1 := by
  intro hx
  unfold splitNetloc at h
  dsimp only at h
  split at h
  · split at h
    · exact Option.noConfusion h
    · injection h with h
      subst h
      dsimp only at hx
      have := List.mem_takeWhile_imp hx
      exact absurd this (by decide)
  · injection h with h
    subst h
    exact absurd hx (by simp)

lemma mem_cons_ne {x c : Char} {l : Str} (h : x ∈ c :: l) (hne : x ≠ c) :
    x ∈ l := by
  rcases List.mem_cons.mp h with rfl | h
  · exact absurd rfl hne
  · exact h

lemma hash_u1 (nl url : Str)
    (h : '#' ∈ (if nl ≠ [] ∨ url.take 2 = ['/', '/'] then
        '/' :: '/' :: nl ++
          (if url ≠ [] ∧ url.head? ≠ some '/' then '/' :: url else url)
      else url)) :
    '#' ∈ nl ∨ '#' ∈ url := by
  split at h
  · have h1 := mem_cons_ne h (by decide)
    have h2 := mem_cons_ne h1 (by decide)
    rcases List.mem_append.mp h2 with h3 | h3
    · exact Or.inl h3
    · split at h3
      · exact Or.inr (mem_cons_ne h3 (by decide))
      · exact Or.inr h3
  · exact Or.inr h

lemma urlunsplitF_hash (sch nl url q : Str)
    (h : '#' ∈ urlunsplitF sch nl url q []) :
    '#' ∈ sch ∨ '#' ∈ nl ∨ '#' ∈ url ∨ '#' ∈ q := by
  unfold urlunsplitF at h
  dsimp only at h
  rw [if_neg (by simp)] at h
  split at h
  · rcases List.mem_append.mp h with h | h
    · split at h
      · rcases List.mem_append.mp h with h | h
        · exact Or.inl h
        · rcases hash_u1 nl url (mem_cons_ne h (by decide)) with h | h
          · exact Or.inr (Or.inl h)
          · exact Or.inr (Or.inr (Or.inl h))
      · rcases hash_u1 nl url h with h | h
        · exact Or.inr (Or.inl h)
        · exact Or.inr (Or.inr (Or.inl h))
    · exact Or.inr (Or.inr (Or.inr (mem_cons_ne h (by decide))))
  · split at h
    · rcases List.mem_append.mp h with h | h
      · exact Or.inl h
      · rcases hash_u1 nl url (mem_cons_ne h (by decide)) with h | h
        · exact Or.inr (Or.inl h)
        · exact Or.inr (Or.inr (Or.inl h))
    · rcases hash_u1 nl url h with h | h
      · exact Or.inr (Or.inl h)
      · exact Or.inr (Or.inr (Or.inl h))

lemma urlunparseF_hash (p : UrlParts) (hfrag : p.fragment = [])
    (h : '#' ∈ urlunparseF p) :
    '#' ∈ p.scheme ∨ '#' ∈ p.netloc ∨ '#' ∈ p.path ∨ '#' ∈ p.params ∨
      '#' ∈ p.query := by
  unfold urlunparseF at h
  rw [hfrag] at h
  rcases urlunsplitF_hash _ _ _ _ h with h | h | h | h
  · exact Or.inl h
  · exact Or.inr (Or.inl h)
  · split at h
    · rcases List.mem_append.mp h with h | h
      · exact Or.inr (Or.inr (Or.inl h))
      · exact Or.inr (Or.inr (Or.inr (Or.inl (mem_cons_ne h (by decide)))))
    · exact Or.inr (Or.inr (Or.inl h))
  · exact Or.inr (Or.inr (Or.inr (Or.inr h)))

lemma urlsplitM_no_hash (s : Str) (sp : UrlSplit) (h : urlsplitM s = some sp) :
    '#' ∉ sp.scheme ∧ '#' ∉ sp.netloc ∧ '#' ∉ sp.path ∧ '#' ∉ sp.query := by
  unfold urlsplitM at h
  cases hn : splitNetloc (splitScheme (removeUnsafe s)).2 with
  | none =>
    rw [hn] at h
    exact Option.noConfusion h
  | some nr =>
    rw [hn] at h
    dsimp only at h
    injection h with h
    subst h
    refine ⟨splitScheme_fst_hash _, splitNetloc_fst_hash _ nr hn, ?_, ?_⟩
    · intro hx
      have h1 := splitQuery_fst_mem _ '#' hx
      exact (splitFrag_fst_mem _ '#' h1).2 rfl
    · intro hx
      have h1 := splitQuery_snd_mem _ '#' hx
      exact (splitFrag_fst_mem _ '#' h1).2 rfl

lemma urlparseM_no_hash (s : Str) (pp : UrlParts) (h : urlparseM s = some pp) :
    '#' ∉ pp.scheme ∧ '#' ∉ pp.netloc ∧ '#' ∉ pp.path ∧ '#' ∉ pp.params ∧
      '#' ∉ pp.query := by
  unfold urlparseM at h
  cases hu : urlsplitM s with
  | none =>
    rw [hu] at h
    exact Option.noConfusion h
  | some u =>
    rw [hu] at h
    dsimp only at h
    injection h with h
    subst h
    obtain ⟨h1, h2, h3, h4⟩ := urlsplitM_no_hash s u hu
    refine ⟨h1, h2, ?_, ?_, h4⟩
    · intro hx
      dsimp only at hx
      split at hx
      · rcases splitParams_fst_mem u.path '#' hx with hx | hx
        · exact h3 hx
        · exact absurd hx (by decide)
      · exact h3 hx
    · intro hx
      dsimp only at hx
      split at hx
      · exact h3 (splitParams_snd_mem u.path '#' hx)
      · exact absurd hx (by simp)

lemma canonicalizeUrl_no_hash (opts : CanonOpts) (u o : Str)
    (hstrip : opts.stripFragment = true)
    (h : canonicalizeUrl opts u = some o) : '#' ∉ o := by
  unfold canonicalizeUrl at h
  split at h
  · exact Option.noConfusion h
  · set U := (if opts.encodeSpaces then encodeSpacesF (pyStrip u)
      else pyStrip u) with hU
    split at h
    · exact Option.noConfusion h
    · split at h
      · exact Option.noConfusion h
      · rename_i p hp
        split at h
        · exact Option.noConfusion h
        · repeat' split at h
          all_goals first
            | exact Option.noConfusion h
            | (rename_i hnotstrip
               exact absurd hstrip hnotstrip)
            | (injection h with h
               subst h
               intro hx
               obtain ⟨hs, hn, hpth, hprm, hq⟩ := urlparseM_no_hash _ p hp
               rcases urlunparseF_hash _ rfl hx with hx | hx | hx | hx | hx
               · first
                   | exact hs (lowerStr_hash _ hx)
                   | exact hs hx
               · first
                   | exact hn (lowerStr_hash _ hx)
                   | exact hn hx
               · exact hpth (canonNormPath_hash _ _ hx)
               · exact hprm hx
               · exact hq hx)

set_option maxRecDepth 100000 in
/-- C9 counterexample: the directory crawler emits a contact detail-page
URL through _canonicalize_any_url, which keeps the path verbatim: the
emitted url "http://e/p/" ends in a slash on a non-root path and is not a
fixpoint of base canonicalization (which maps it to "http://e/p"), so the
claimed invariant fails for the Directory Dedup Model's records. -/
theorem C9_counterexample :
    telSlashOut.map (List.map TelRec.url) = some ["http://e/p/".data] ∧
    anyCanonicalize "http://e/p/".data = some "http://e/p/".data ∧
    endsWithChar '/' "http://e/p/".data = true ∧
    canonicalizeUrl {} "http://e/p/".data = some "http://e/p".data ∧
    "http://e/p".data ≠ "http://e/p/".data := by
  refine ⟨by rfl, by rfl, by rfl, by rfl, by decide⟩

/-- C9 amended: fragments are indeed stripped — no output of
base.canonicalize_url (with strip_fragment left at its default) contains
a '#' — and every record emitted by the devb_publications crawl carries a
URL produced by that crawler's canonicalizer, hence fragment-free with an
allowed document extension.  (The no-trailing-slash / fixpoint part of
the claim fails for the directory crawler; see the counterexample.) -/
theorem C9_amended :
    (∀ (opts : CanonOpts) (u o : Str), opts.stripFragment = true →
        canonicalizeUrl opts u = some o → '#' ∉ o) ∧
    (∀ (world : Str → Option DevbPage) (cfg : DevbCfg) (fuel : Nat)
        (st : DevbState), devbCrawl world cfg fuel = some st →
        ∀ r ∈ st.out, ∃ raw, devbCanonicalize raw = some r.url ∧
          pathExt r.url ∈ allowedDocExts ∧ '#' ∉ r.url) := by
  constructor
  · intro opts u o hstrip h
    exact canonicalizeUrl_no_hash opts u o hstrip h
  · intro world cfg fuel st h r hr
    obtain ⟨-, -, -, -, -, hout⟩ := devbCrawl_inv world cfg fuel st h
    obtain ⟨raw, hcan, hext⟩ := hout r hr
    exact ⟨raw, hcan, hext, canonicalizeUrl_no_hash _ raw r.url rfl hcan⟩

/-- Witness for C9: canonicalizing a URL with a fragment yields a
'#'-free output. -/
theorem C9_amended_witness : '#' ∉ "http://h/a".data :=
  C9_amended.1 {} "http://H/a#frag".data "http://h/a".data rfl (by rfl)

end OpenLib
